import Mathlib

/-!
Night Agent sidecar (`sidecar/main.go`): log watcher and anomaly reporter

A shallow embedding of `watchLogs`, `processLogFile`, `reportAnomaly` and
`startHeartbeat`.

* A Go `string` / `[]byte` is a list of bytes, each byte a natural number.
* The operating system (open, seek, read), the clock and the HTTP client are
  inputs of the model: every call into them takes its outcome from an
  environment record.
* Everything the code does to the outside (log lines, classifier calls,
  HTTP posts) is returned as a list of `Effect`s, in program order.
* The body of the anomaly POST is what `json.Marshal` writes, taken as the
  JSON object a receiver reads back from it.
-/

namespace Sidecar

/-! ## Bytes and strings -/

/-- A Go `string`: a sequence of bytes. -/
abbrev GoString := List Nat

/-- The bytes of an ASCII literal of the source. -/
def ascii (s : String) : GoString := s.toList.map Char.toNat

/-! ## The classifier: `regexp.MustCompile("(?i)(error|exception|fail)")`

The pattern uses literals, alternation, one capture group and the fold-case
flag; that fragment of `regexp/syntax` is modelled. The pattern's letters are
ASCII, and an ASCII byte of the input always decodes as a rune of its own, so
matching is done on bytes. -/

/-- The fragment of `regexp/syntax.Regexp` the pattern needs. -/
inductive Regexp where
  | literal (foldCase : Bool) (runes : GoString)
  | alternate (left right : Regexp)
  | capture (sub : Regexp)
  deriving Repr, DecidableEq

/-- The case-folding orbit step `unicode.SimpleFold` on ASCII: a letter goes to
its other case, anything else to itself. (Exact for every letter except `k` and
`s`, whose orbits have a third, non-ASCII member; the pattern has neither.) -/
def simpleFold (r : Nat) : Nat :=
  if 65 ≤ r ∧ r ≤ 90 then r + 32
  else if 97 ≤ r ∧ r ≤ 122 then r - 32
  else r

/-- One literal rune `r0` of the pattern against one input rune `r`
(`syntax.Inst.MatchRunePos` for a one-rune instruction). -/
def matchRune (foldCase : Bool) (r0 r : Nat) : Bool :=
  r == r0 || (foldCase && r == simpleFold r0)

/-- Does the input start with the literal? -/
def matchLiteral (foldCase : Bool) : GoString → GoString → Bool
  | [], _ => true
  | _ :: _, [] => false
  | r0 :: runes, r :: input => matchRune foldCase r0 r && matchLiteral foldCase runes input

/-- Does some prefix of the input match the expression? -/
def Regexp.matchPrefix : Regexp → GoString → Bool
  | .literal foldCase runes, input => matchLiteral foldCase runes input
  | .alternate left right, input => left.matchPrefix input || right.matchPrefix input
  | .capture sub, input => sub.matchPrefix input

/-- The unanchored search of `(*Regexp).MatchString`: a match may start at any
position of the input, the end included. -/
def Regexp.MatchString (re : Regexp) : GoString → Bool
  | [] => re.matchPrefix []
  | r :: input => re.matchPrefix (r :: input) || re.MatchString input

/-- The compiled `errorRegex` of `watchLogs`: `(?i)(error|exception|fail)`. -/
def errorRegex : Regexp :=
  .capture (.alternate (.literal true (ascii "error"))
    (.alternate (.literal true (ascii "exception")) (.literal true (ascii "fail"))))

/-! ### The classifier as the specification words it -/

/-- The trigger terms. -/
def triggerTerms : List GoString := [ascii "error", ascii "exception", ascii "fail"]

/-- Lower-casing of one byte: an upper-case ASCII letter goes to its lower-case
form, every other byte stays. -/
def toLowerByte (b : Nat) : Nat := if 65 ≤ b ∧ b ≤ 90 then b + 32 else b

/-- The chunk contains the term as a substring, in any mix of upper and lower
case letters: some contiguous part of the chunk lower-cases to the term. -/
def ContainsTerm (term chunk : GoString) : Prop :=
  ∃ pre mid post, chunk = pre ++ mid ++ post ∧ mid.map toLowerByte = term

/-- The chunk contains at least one trigger term. -/
def HasTrigger (chunk : GoString) : Prop := ∃ t ∈ triggerTerms, ContainsTerm t chunk

/-! ## Data model (`main.go` lines 15-29) -/

/-- The `Config` struct. -/
structure Config where
  BackendURL : GoString
  ServiceID : GoString
  LogPaths : List GoString
  deriving Repr, DecidableEq

/-- The `Anomaly` struct. `Confidence` is a `float64` in the source; the only
value the program stores there is the literal `1.0`, which is exact, so the
field is a rational here. -/
structure Anomaly where
  ID : GoString
  ServiceID : GoString
  Timestamp : GoString
  Severity : GoString
  Message : GoString
  Logs : List GoString
  Confidence : Rat
  deriving Repr, DecidableEq

/-! ### The JSON body (`json.Marshal`, line 114)

`encoding/json` writes a Go string as a JSON string. Its escapes (quotes,
backslash, control characters, `<`, `>`, `&`, U+2028, U+2029) read back as the
bytes they stand for; the one lossy step is that every byte that does not start
a valid UTF-8 encoding is written as U+FFFD. -/

/-- The first-byte table of `unicode/utf8`: for a byte that starts a multi-byte
encoding, the length of the encoding and the lowest and highest value allowed
for the second byte. -/
def utf8First (b0 : Nat) : Option (Nat × Nat × Nat) :=
  if 0xC2 ≤ b0 ∧ b0 ≤ 0xDF then some (2, 0x80, 0xBF)
  else if b0 = 0xE0 then some (3, 0xA0, 0xBF)
  else if b0 = 0xED then some (3, 0x80, 0x9F)
  else if 0xE1 ≤ b0 ∧ b0 ≤ 0xEF then some (3, 0x80, 0xBF)
  else if b0 = 0xF0 then some (4, 0x90, 0xBF)
  else if 0xF1 ≤ b0 ∧ b0 ≤ 0xF3 then some (4, 0x80, 0xBF)
  else if b0 = 0xF4 then some (4, 0x80, 0x8F)
  else none

/-- A UTF-8 continuation byte. -/
def isContinuation (b : Nat) : Bool := 0x80 ≤ b && b ≤ 0xBF

/-- The width `utf8.DecodeRuneInString` reports for a valid encoding at the
start of the string; `none` where it reports `(RuneError, 1)`, which is an
invalid or cut-off encoding, and for the empty string. -/
def decodeRuneWidth : GoString → Option Nat
  | [] => none
  | b0 :: rest =>
    if b0 < 0x80 then some 1
    else
      match utf8First b0 with
      | none => none
      | some (size, lo, hi) =>
        match rest with
        | [] => none
        | b1 :: rest1 =>
          if lo ≤ b1 ∧ b1 ≤ hi then
            if size ≤ 2 then some 2
            else
              match rest1 with
              | [] => none
              | b2 :: rest2 =>
                if isContinuation b2 then
                  if size ≤ 3 then some 3
                  else
                    match rest2 with
                    | [] => none
                    | b3 :: _ => if isContinuation b3 then some 4 else none
                else none
          else none

/-- The string a receiver reads back from the JSON string `encoding/json`
writes for a Go string: valid encodings are kept, every other byte becomes
U+FFFD (bytes `EF BF BD`). The first argument counts the bytes still to copy
of the encoding under way. -/
def jsonString : Nat → GoString → GoString
  | _, [] => []
  | more + 1, b :: rest => b :: jsonString more rest
  | 0, b :: rest =>
    match decodeRuneWidth (b :: rest) with
    | some width => b :: jsonString (width - 1) rest
    | none => 0xEF :: 0xBF :: 0xBD :: jsonString 0 rest

/-- The check `utf8.ValidString`: every byte belongs to a valid encoding. The
first argument counts the bytes still to skip of the encoding under way. -/
def validUTF8 : Nat → GoString → Bool
  | _, [] => true
  | more + 1, _ :: rest => validUTF8 more rest
  | 0, b :: rest =>
    match decodeRuneWidth (b :: rest) with
    | some width => validUTF8 (width - 1) rest
    | none => false

/-- The JSON object of an anomaly, with the keys of the struct tags. -/
structure AnomalyJSON where
  id : GoString
  serviceId : GoString
  timestamp : GoString
  severity : GoString
  message : GoString
  logs : List GoString
  confidence : Rat
  deriving Repr, DecidableEq

/-- The object `json.Marshal(anomaly)` writes (it cannot fail on this struct). -/
def jsonMarshal (anomaly : Anomaly) : AnomalyJSON :=
  { id := jsonString 0 anomaly.ID
    serviceId := jsonString 0 anomaly.ServiceID
    timestamp := jsonString 0 anomaly.Timestamp
    severity := jsonString 0 anomaly.Severity
    message := jsonString 0 anomaly.Message
    logs := anomaly.Logs.map (jsonString 0)
    confidence := anomaly.Confidence }

/-- What the program does to the outside, one constructor per call site. -/
inductive Effect where
  /-- The call `os.Open(path)`, line 68 -/
  | osOpen (path : GoString)
  /-- The line `log.Printf("Failed to open %s: %v", path, err)`, line 70 -/
  | logOpenFailed (path : GoString)
  /-- The line `log.Printf("Read from %s: %s", path, content)`, line 96 -/
  | logRead (path content : GoString)
  /-- The call `regex.MatchString(content)`, line 97: the classifier is handed `content` -/
  | matchString (content : GoString)
  /-- The call `http.Post(cfg.BackendURL+"/anomaly", ...)` with the marshalled event, line 115 -/
  | postAnomaly (url : GoString) (body : AnomalyJSON)
  /-- The line `log.Printf("Failed to report anomaly: %v", err)`, line 117 -/
  | logReportFailed
  /-- The line `log.Printf("Anomaly reported: %s", anomaly.ID)`, line 121 -/
  | logReported (id : GoString)
  /-- The call `http.Post(cfg.BackendURL+"/heartbeat", "application/json", nil)`, line 53 -/
  | postHeartbeat (url : GoString)
  /-- The line `log.Printf("Heartbeat failed: %v", err)`, line 55 -/
  | logHeartbeatFailed
  /-- The line `log.Println("Heartbeat sent")`, line 59 -/
  | logHeartbeatSent
  deriving Repr, DecidableEq

/-- The bodies of the outbound anomaly calls among the effects, in order. -/
def anomalyCalls : List Effect → List AnomalyJSON
  | [] => []
  | .postAnomaly _ body :: rest => body :: anomalyCalls rest
  | _ :: rest => anomalyCalls rest

/-- The chunks handed to the classifier among the effects, in order. -/
def classified : List Effect → List GoString
  | [] => []
  | .matchString content :: rest => content :: classified rest
  | _ :: rest => classified rest

/-- The calls that leave the process or enter the classifier (log lines dropped). -/
def attempts : List Effect → List Effect
  | [] => []
  | .matchString content :: rest => .matchString content :: attempts rest
  | .postAnomaly url body :: rest => .postAnomaly url body :: attempts rest
  | .postHeartbeat url :: rest => .postHeartbeat url :: attempts rest
  | _ :: rest => attempts rest

/-! ## The reporter (`reportAnomaly`, lines 103-122) -/

/-- What the outside gives one call of `reportAnomaly`. -/
structure ReportEnv where
  /-- The value of `time.Now().UnixNano()` of line 105 -/
  unixNano : Int
  /-- The value of `time.Now().Format(time.RFC3339)` of line 107 -/
  rfc3339 : GoString
  /-- Whether `http.Post` of line 115 returns an error -/
  postFails : Bool

/-- The struct literal of lines 104-112. -/
def buildAnomaly (logLine : GoString) (cfg : Config) (env : ReportEnv) : Anomaly :=
  { ID := ascii "evt-" ++ ascii (toString env.unixNano)
    ServiceID := cfg.ServiceID
    Timestamp := env.rfc3339
    Severity := ascii "Critical"
    Message := ascii "Detected error in logs: " ++ logLine
    Logs := [logLine]
    Confidence := 1 }

/-- The function `reportAnomaly(logLine, cfg)`: build the event, marshal it, post the
JSON once, log the outcome. Nothing is returned to the caller. -/
def reportAnomaly (logLine : GoString) (cfg : Config) (env : ReportEnv) : List Effect :=
  let anomaly := buildAnomaly logLine cfg env
  let jsonData := jsonMarshal anomaly
  let post := Effect.postAnomaly (cfg.BackendURL ++ ascii "/anomaly") jsonData
  if env.postFails then [post, .logReportFailed]
  else [post, .logReported anomaly.ID]

/-! ## The heartbeat (`startHeartbeat`, lines 50-61) -/

/-- The body of the loop for one tick of the 30-second ticker; `postFails`
tells whether `http.Post` returned an error. -/
def heartbeatStep (cfg : Config) (postFails : Bool) : List Effect :=
  let post := Effect.postHeartbeat (cfg.BackendURL ++ ascii "/heartbeat")
  if postFails then [post, .logHeartbeatFailed]
  else [post, .logHeartbeatSent]

/-- The loop `for range ticker.C` over the ticks delivered so far, one POST
outcome per tick. -/
def startHeartbeat (cfg : Config) : List Bool → List Effect
  | [] => []
  | postFails :: later => heartbeatStep cfg postFails ++ startHeartbeat cfg later

/-! ## One poll (`processLogFile`, lines 88-101) -/

/-- An `*os.File` on a regular file: the file it was opened on and the read
offset the kernel keeps for it. -/
structure OsFile where
  name : GoString
  offset : Nat
  deriving Repr, DecidableEq

/-- The `err` result of `file.Read`. -/
inductive ReadError where
  | none
  | EOF
  | other
  deriving Repr, DecidableEq

/-- The call `file.Read(buf)` with `len(buf) = bufLen` on a regular file whose bytes are
`content`: a failing read returns `0` and an error and leaves the offset; at or
past the end it returns `0, io.EOF`; otherwise it returns the bytes from the
offset on, as many as there are up to `bufLen`, and the offset moves past them. -/
def OsFile.Read (file : OsFile) (content : GoString) (bufLen : Nat) (fails : Bool) :
    OsFile × GoString × ReadError :=
  if fails then (file, [], .other)
  else
    let data := (content.drop file.offset).take bufLen
    if data.length = 0 then (file, [], .EOF)
    else ({ file with offset := file.offset + data.length }, data, .none)

/-- What the outside gives one call of `processLogFile`. -/
structure PollEnv where
  /-- Whether `file.Read` fails with an error other than `io.EOF` -/
  readFails : Bool
  /-- For the `reportAnomaly` call, if there is one -/
  report : ReportEnv

/-- The function `processLogFile(file, path, regex, cfg)`; `content` is what the file holds
when it is read. Returns the handle after the call and the effects. -/
def processLogFile (content : GoString) (file : OsFile) (path : GoString) (regex : Regexp)
    (cfg : Config) (env : PollEnv) : OsFile × List Effect :=
  match file.Read content 1024 env.readFails with
  | (file1, data, err) =>
    if err = ReadError.other then (file1, [])
    else if data.length > 0 then
      if regex.MatchString data then
        (file1, [.logRead path data, .matchString data] ++ reportAnomaly data cfg env.report)
      else (file1, [.logRead path data, .matchString data])
    else (file1, [])

/-- Polling cycles on one cursor, that is, what the ticks of `watchLogs` do to
one file (`runTicks_pollsOf` below): before each poll the file has grown by the
bytes appended since the previous poll (possibly none). Returns the cursor
after the last poll and the effects of each poll. -/
def pollCycles (path : GoString) (cfg : Config) :
    GoString → OsFile → List (GoString × PollEnv) → OsFile × List (List Effect)
  | _, file, [] => (file, [])
  | content, file, (appended, env) :: later =>
    match processLogFile (content ++ appended) file path errorRegex cfg env with
    | (file1, effects) =>
      match pollCycles path cfg (content ++ appended) file1 later with
      | (file2, rest) => (file2, effects :: rest)

/-! ## The watcher (`watchLogs`, lines 63-86) -/

/-- The files on disk: path to content. -/
abbrev Disk := GoString → GoString

/-- The Go map `files` of line 65, `map[string]*os.File`, as an association
list with one entry per key. The position of an entry has no meaning: `range`
takes its order from the environment. -/
abbrev FileMap := List (GoString × OsFile)

/-- The lookup `files[path]`. -/
def FileMap.load : FileMap → GoString → Option OsFile
  | [], _ => none
  | (k, v) :: rest, path => if k = path then some v else FileMap.load rest path

/-- The assignment `files[path] = f`: replaces the entry of an existing key. -/
def FileMap.store : FileMap → GoString → OsFile → FileMap
  | [], path, f => [(path, f)]
  | (k, v) :: rest, path, f =>
    if k = path then (k, f) :: rest else (k, v) :: FileMap.store rest path f

/-- The keys of the map. -/
def FileMap.keys (m : FileMap) : List GoString := m.map Prod.fst

/-- The loop of lines 67-76 over `cfg.LogPaths`. `openFails i` tells whether the
`os.Open` of the entry `i` places further down the list fails; `disk` is the
disk at watch start, whose file lengths `f.Seek(0, 2)` returns (the files are
regular files, on which the seek does not fail). -/
def openLoop (disk : Disk) : (Nat → Bool) → List GoString → FileMap → FileMap × List Effect
  | _, [], files => (files, [])
  | openFails, path :: later, files =>
    if openFails 0 then
      match openLoop disk (fun i => openFails (i + 1)) later files with
      | (files1, effects) => (files1, .osOpen path :: .logOpenFailed path :: effects)
    else
      match openLoop disk (fun i => openFails (i + 1)) later
        (files.store path { name := path, offset := (disk path).length }) with
      | (files1, effects) => (files1, .osOpen path :: effects)

/-- What the outside gives one tick of the watcher's 1-second ticker. -/
structure TickEnv where
  /-- The bytes appended to each file since the previous tick -/
  appended : GoString → GoString
  /-- The keys in the order in which `range files` yields them in this tick -/
  order : List GoString
  /-- The environment of the poll of each path -/
  poll : GoString → PollEnv

/-- The inner loop of lines 82-84, `for path, file := range files`, over the
keys in the order `range` yields them. The offset lives in the `*os.File` the
map points to, so the entry is updated. Each poll is returned with its path. -/
def rangeFiles (cfg : Config) (disk : Disk) (poll : GoString → PollEnv) :
    List GoString → FileMap → FileMap × List (GoString × List Effect)
  | [], files => (files, [])
  | path :: later, files =>
    match files.load path with
    | none => rangeFiles cfg disk poll later files
    | some file =>
      match processLogFile (disk file.name) file path errorRegex cfg (poll path) with
      | (file1, effects) =>
        match rangeFiles cfg disk poll later (files.store path file1) with
        | (files1, polls) => (files1, (path, effects) :: polls)

/-- The watcher between ticks: its map of cursors, and the disk. -/
structure WatchState where
  files : FileMap
  disk : Disk

/-- One iteration of the outer loop of line 81: the files have grown, then
every entry of the map is polled. -/
def tick (cfg : Config) (st : WatchState) (env : TickEnv) :
    WatchState × List (GoString × List Effect) :=
  let disk : Disk := fun path => st.disk path ++ env.appended path
  match rangeFiles cfg disk env.poll env.order st.files with
  | (files1, polls) => ({ files := files1, disk := disk }, polls)

/-- The outer loop over the ticks delivered so far; returns the polls of each tick. -/
def runTicks (cfg : Config) : WatchState → List TickEnv →
    WatchState × List (List (GoString × List Effect))
  | st, [] => (st, [])
  | st, env :: later =>
    match tick cfg st env with
    | (st1, polls) =>
      match runTicks cfg st1 later with
      | (st2, rest) => (st2, polls :: rest)

/-- The function `watchLogs(cfg)` up to a number of ticks: the state after the set-up loop,
the effects of the set-up loop, the state after the last tick and the polls of
each tick. -/
def watchLogs (cfg : Config) (disk : Disk) (openFails : Nat → Bool) (ticks : List TickEnv) :
    WatchState × List Effect × WatchState × List (List (GoString × List Effect)) :=
  match openLoop disk openFails cfg.LogPaths [] with
  | (files, effects) =>
    match runTicks cfg { files := files, disk := disk } ticks with
    | (st, polls) => ({ files := files, disk := disk }, effects, st, polls)

/-- In this tick `range` yields every key of the map exactly once. -/
def ValidOrder (files : FileMap) (env : TickEnv) : Prop := env.order.Perm files.keys

/-- The configured paths whose `os.Open` succeeds, in the order of the
configuration: the order in which the cursors are created. -/
def openedPaths : (Nat → Bool) → List GoString → List GoString
  | _, [] => []
  | openFails, path :: later =>
    if openFails 0 then openedPaths (fun i => openFails (i + 1)) later
    else path :: openedPaths (fun i => openFails (i + 1)) later

/-- The same poll with the anomaly POST succeeding. -/
def PollEnv.delivered (env : PollEnv) : PollEnv :=
  { env with report := { env.report with postFails := false } }

/-- The same tick with every anomaly POST succeeding. -/
def TickEnv.allDelivered (env : TickEnv) : TickEnv :=
  { env with poll := fun path => (env.poll path).delivered }

/-- Concatenation of chunks, in order. -/
def concatBytes : List GoString → GoString
  | [] => []
  | chunk :: later => chunk ++ concatBytes later

/-- The bytes handed to the classifier over a sequence of polls, concatenated
in poll order. -/
def delivered : List (List Effect) → GoString
  | [] => []
  | effects :: later => concatBytes (classified effects) ++ delivered later

/-- The bytes `file.Read` returns for a 1024-byte buffer when it does not
fail: those from the offset on, up to 1024 of them. -/
def readChunk (content : GoString) (offset : Nat) : GoString :=
  (content.drop offset).take 1024

/-- The paths of the `os.Open` calls among the effects, in order. -/
def opensOf : List Effect → List GoString
  | [] => []
  | .osOpen path :: rest => path :: opensOf rest
  | _ :: rest => opensOf rest

/-- The paths polled in each tick, in poll order. -/
def polledPaths (ticks : List (List (GoString × List Effect))) : List (List GoString) :=
  ticks.map (fun polls => polls.map Prod.fst)

/-- The effects of the polls of one path over the ticks, in order. -/
def pollsOf (p : GoString) : List (List (GoString × List Effect)) → List (List Effect)
  | [] => []
  | polls :: later =>
    (polls.filter (fun entry => decide (entry.1 = p))).map Prod.snd ++ pollsOf p later

/-- The classifier calls and outbound calls of each poll of each tick. -/
def attemptsOf (ticks : List (List (GoString × List Effect))) :
    List (List (GoString × List Effect)) :=
  ticks.map (fun polls => polls.map (fun entry => (entry.1, attempts entry.2)))

/-! ## Concrete inputs -/

/-- The configuration `main` builds (lines 35-39). -/
def mainConfig : Config :=
  { BackendURL := ascii "http://localhost:3000/api/sidecar"
    ServiceID := ascii "service-1"
    LogPaths := [ascii "./test.log"] }

/-- A poll in which the read succeeds and the POST is delivered. -/
def calmPoll : PollEnv :=
  { readFails := false
    report := { unixNano := 1704067200000000000, rfc3339 := ascii "2024-01-01T00:00:00Z",
                postFails := false } }

/-- A poll in which the read fails with an error other than `io.EOF`. -/
def failingPoll : PollEnv := { calmPoll with readFails := true }

/-- A handle on `./test.log` at offset 0. -/
def testLogAtStart : OsFile := { name := ascii "./test.log", offset := 0 }

/-- Two log paths. -/
def pathA : GoString := ascii "a.log"

/-- The second log path. -/
def pathB : GoString := ascii "b.log"

/-- A configuration that watches two files. -/
def twoPaths : Config := { mainConfig with LogPaths := [pathA, pathB] }

/-- A configuration that lists one file twice. -/
def samePathTwice : Config := { mainConfig with LogPaths := [pathA, pathA] }

/-- A disk on which every file is empty. -/
def emptyDisk : Disk := fun _ => []

/-- Every `os.Open` succeeds. -/
def everyOpenSucceeds : Nat → Bool := fun _ => false

/-- The first `os.Open` fails, the later ones succeed. -/
def firstOpenFails : Nat → Bool := fun i => i == 0

/-- A tick in which nothing is appended, `range` yields the keys in the given
order, every read succeeds and every POST is delivered. -/
def quietTick (order : List GoString) : TickEnv :=
  { appended := fun _ => [], order := order, poll := fun _ => calmPoll }

/-- A tick in which every file receives the same appended bytes. -/
def appendTick (appended : GoString) (order : List GoString) : TickEnv :=
  { appended := fun _ => appended, order := order, poll := fun _ => calmPoll }

/-- A tick in which every file receives the same appended bytes and every read
fails. -/
def failingTick (appended : GoString) (order : List GoString) : TickEnv :=
  { appended := fun _ => appended, order := order, poll := fun _ => failingPoll }

/-- The log line of the end-to-end scenario, newline included. -/
def brokeLine : GoString := ascii "2024-01-01 ERROR something broke\n"

/-- A line with a trigger term and a byte, `0xFF`, that is not valid UTF-8. -/
def badLine : GoString := ascii "error " ++ [255, 10]

/-- A text whose only trigger term lies beyond the first 1024 bytes. -/
def lateError : GoString := List.replicate 1024 120 ++ ascii "error"

/-- A text whose only trigger term straddles the boundary at byte 1024: 1022
bytes `x`, then `error`. -/
def straddle : GoString := List.replicate 1022 120 ++ ascii "error"

/-- Log lines written one after the other, each ended by a newline. -/
def joinLines (lines : List GoString) : GoString :=
  concatBytes (lines.map (fun line => line ++ [10]))

/-! ## Lemmas on the classifier -/

theorem ascii_error : ascii "error" = [101, 114, 114, 111, 114] := by decide

theorem ascii_exception :
    ascii "exception" = [101, 120, 99, 101, 112, 116, 105, 111, 110] := by decide

theorem ascii_fail : ascii "fail" = [102, 97, 105, 108] := by decide

/-- Against a lower-case letter of the pattern, fold-case matching of a byte
is equality after lower-casing. -/
theorem matchRune_lower (c b : Nat) (hc : 97 ≤ c ∧ c ≤ 122) :
    matchRune true c b = true ↔ toLowerByte b = c := by
  unfold matchRune simpleFold toLowerByte
  simp only [Bool.true_and, Bool.or_eq_true, beq_iff_eq]
  split_ifs <;> omega

theorem matchLiteral_lower (term : GoString) (hterm : ∀ c ∈ term, 97 ≤ c ∧ c ≤ 122) :
    ∀ input : GoString, matchLiteral true term input = true ↔
      ∃ mid post, input = mid ++ post ∧ mid.map toLowerByte = term := by
  induction term with
  | nil =>
    intro input
    simp only [matchLiteral, true_iff]
    exact ⟨[], input, rfl, rfl⟩
  | cons c term ih =>
    have hc := hterm c (List.mem_cons_self _ _)
    have ih2 := ih (fun d hd => hterm d (List.mem_cons_of_mem _ hd))
    intro input
    cases input with
    | nil =>
      simp only [matchLiteral, Bool.false_eq_true, false_iff]
      rintro ⟨mid, post, h1, h2⟩
      cases mid with
      | nil => simp at h2
      | cons m mid => simp at h1
    | cons b input =>
      simp only [matchLiteral, Bool.and_eq_true, matchRune_lower c b hc, ih2 input]
      constructor
      · rintro ⟨hb, mid, post, h1, h2⟩
        exact ⟨b :: mid, post, by simp [h1], by simp [hb, h2]⟩
      · rintro ⟨mid, post, h1, h2⟩
        cases mid with
        | nil => simp at h2
        | cons m mid =>
          simp only [List.cons_append, List.cons.injEq] at h1
          simp only [List.map_cons, List.cons.injEq] at h2
          exact ⟨by rw [h1.1]; exact h2.1, mid, post, h1.2, h2.2⟩

/-- The unanchored search succeeds exactly when the expression matches at the
start of some suffix of the input. -/
theorem MatchString_iff (re : Regexp) :
    ∀ input : GoString, re.MatchString input = true ↔
      ∃ pre rest, input = pre ++ rest ∧ re.matchPrefix rest = true := by
  intro input
  induction input with
  | nil =>
    simp only [Regexp.MatchString]
    constructor
    · intro h
      exact ⟨[], [], rfl, h⟩
    · rintro ⟨pre, rest, h1, h2⟩
      have h3 : rest = [] := (List.append_eq_nil.mp h1.symm).2
      rw [h3] at h2
      exact h2
  | cons b input ih =>
    simp only [Regexp.MatchString, Bool.or_eq_true, ih]
    constructor
    · rintro (h | ⟨pre, rest, h1, h2⟩)
      · exact ⟨[], b :: input, rfl, h⟩
      · exact ⟨b :: pre, rest, by simp [h1], h2⟩
    · rintro ⟨pre, rest, h1, h2⟩
      cases pre with
      | nil =>
        left
        simp only [List.nil_append] at h1
        rw [h1]
        exact h2
      | cons p pre =>
        right
        simp only [List.cons_append, List.cons.injEq] at h1
        exact ⟨pre, rest, h1.2, h2⟩

theorem literal_search_iff (term : GoString) (hterm : ∀ c ∈ term, 97 ≤ c ∧ c ≤ 122)
    (input : GoString) :
    (∃ pre rest, input = pre ++ rest ∧ matchLiteral true term rest = true) ↔
      ContainsTerm term input := by
  unfold ContainsTerm
  constructor
  · rintro ⟨pre, rest, h1, h2⟩
    obtain ⟨mid, post, h3, h4⟩ := (matchLiteral_lower term hterm rest).mp h2
    exact ⟨pre, mid, post, by rw [h1, h3, List.append_assoc], h4⟩
  · rintro ⟨pre, mid, post, h1, h2⟩
    exact ⟨pre, mid ++ post, by rw [h1, List.append_assoc],
      (matchLiteral_lower term hterm _).mpr ⟨mid, post, rfl, h2⟩⟩

/-- The compiled pattern finds a match exactly in the chunks that hold a
trigger term. -/
theorem errorRegex_iff (chunk : GoString) :
    errorRegex.MatchString chunk = true ↔ HasTrigger chunk := by
  have h1 := literal_search_iff (ascii "error") (by rw [ascii_error]; decide) chunk
  have h2 := literal_search_iff (ascii "exception") (by rw [ascii_exception]; decide) chunk
  have h3 := literal_search_iff (ascii "fail") (by rw [ascii_fail]; decide) chunk
  rw [MatchString_iff]
  unfold HasTrigger triggerTerms
  simp only [List.mem_cons, List.mem_singleton, List.not_mem_nil, or_false, exists_eq_or_imp,
    exists_eq_left, ← h1, ← h2, ← h3]
  simp only [errorRegex, Regexp.matchPrefix, Bool.or_eq_true]
  constructor
  · rintro ⟨pre, rest, hsplit, (hm | hm | hm)⟩
    · exact Or.inl ⟨pre, rest, hsplit, hm⟩
    · exact Or.inr (Or.inl ⟨pre, rest, hsplit, hm⟩)
    · exact Or.inr (Or.inr ⟨pre, rest, hsplit, hm⟩)
  · rintro (⟨pre, rest, hsplit, hm⟩ | ⟨pre, rest, hsplit, hm⟩ | ⟨pre, rest, hsplit, hm⟩)
    · exact ⟨pre, rest, hsplit, Or.inl hm⟩
    · exact ⟨pre, rest, hsplit, Or.inr (Or.inl hm)⟩
    · exact ⟨pre, rest, hsplit, Or.inr (Or.inr hm)⟩

/-! ## Lemmas on one poll -/

theorem errorRegex_nil : errorRegex.MatchString [] = false := by decide

theorem readChunk_length (content : GoString) (offset : Nat) :
    (readChunk content offset).length = min 1024 (content.length - offset) := by
  simp [readChunk]

theorem Read_ok (file : OsFile) (content : GoString) :
    file.Read content 1024 false =
      if readChunk content file.offset = [] then (file, [], ReadError.EOF)
      else ({ file with offset := file.offset + (readChunk content file.offset).length },
        readChunk content file.offset, ReadError.none) := by
  unfold OsFile.Read readChunk
  simp only [Bool.false_eq_true, if_false, List.length_eq_zero]

/-- A poll whose read does not fail, spelled out. -/
theorem processLogFile_ok (content : GoString) (file : OsFile) (path : GoString)
    (cfg : Config) (env : PollEnv) (hread : env.readFails = false) :
    processLogFile content file path errorRegex cfg env =
      if readChunk content file.offset = [] then (file, [])
      else if errorRegex.MatchString (readChunk content file.offset) = true then
        ({ file with offset := file.offset + (readChunk content file.offset).length },
          [.logRead path (readChunk content file.offset),
            .matchString (readChunk content file.offset)] ++
            reportAnomaly (readChunk content file.offset) cfg env.report)
      else
        ({ file with offset := file.offset + (readChunk content file.offset).length },
          [.logRead path (readChunk content file.offset),
            .matchString (readChunk content file.offset)]) := by
  unfold processLogFile
  rw [hread, Read_ok]
  by_cases h : readChunk content file.offset = []
  · simp [h]
  · have h4 : 0 < (readChunk content file.offset).length := List.length_pos.mpr h
    simp [h, h4]

/-- A poll whose read fails does nothing. -/
theorem processLogFile_fail (content : GoString) (file : OsFile) (path : GoString)
    (regex : Regexp) (cfg : Config) (env : PollEnv) (hread : env.readFails = true) :
    processLogFile content file path regex cfg env = (file, []) := by
  unfold processLogFile OsFile.Read
  rw [hread]
  simp

theorem anomalyCalls_reportAnomaly (logLine : GoString) (cfg : Config) (env : ReportEnv) :
    anomalyCalls (reportAnomaly logLine cfg env) =
      [jsonMarshal (buildAnomaly logLine cfg env)] := by
  unfold reportAnomaly
  cases env.postFails <;> simp [anomalyCalls]

theorem classified_reportAnomaly (logLine : GoString) (cfg : Config) (env : ReportEnv) :
    classified (reportAnomaly logLine cfg env) = [] := by
  unfold reportAnomaly
  cases env.postFails <;> simp [classified]

/-! ## Lemmas on the JSON body -/

/-- Valid UTF-8 comes back from the JSON body as it went in. -/
theorem jsonString_of_valid :
    ∀ (s : GoString) (more : Nat), validUTF8 more s = true → jsonString more s = s := by
  intro s
  induction s with
  | nil => intro more _; cases more <;> rfl
  | cons b rest ih =>
    intro more hvalid
    cases more with
    | succ k =>
      simp only [validUTF8] at hvalid
      simp only [jsonString, ih k hvalid]
    | zero =>
      simp only [validUTF8] at hvalid
      simp only [jsonString]
      cases hwidth : decodeRuneWidth (b :: rest) with
      | none =>
        rw [hwidth] at hvalid
        exact absurd hvalid Bool.false_ne_true
      | some width =>
        rw [hwidth] at hvalid
        simp only [ih (width - 1) hvalid]

theorem decodeRuneWidth_ascii (b : Nat) (rest : GoString) (hb : b < 128) :
    decodeRuneWidth (b :: rest) = some 1 := by
  simp [decodeRuneWidth, hb]

/-- An ASCII text in front of a string passes through the JSON body unchanged. -/
theorem jsonString_ascii_append (s : GoString) :
    ∀ front : GoString, (∀ b ∈ front, b < 128) →
      jsonString 0 (front ++ s) = front ++ jsonString 0 s := by
  intro front
  induction front with
  | nil => intro _; rfl
  | cons b rest ih =>
    intro hfront
    have hb : b < 128 := hfront b (List.mem_cons_self _ _)
    have hrest := ih (fun c hc => hfront c (List.mem_cons_of_mem _ hc))
    rw [List.cons_append]
    simp only [jsonString, decodeRuneWidth_ascii b (rest ++ s) hb]
    rw [show (1 : Nat) - 1 = 0 from rfl, hrest, List.cons_append]

/-- The logs and the message of the posted body when the text is valid UTF-8. -/
theorem jsonMarshal_of_valid (X : GoString) (cfg : Config) (env : ReportEnv)
    (hvalid : validUTF8 0 X = true) :
    (jsonMarshal (buildAnomaly X cfg env)).logs = [X] ∧
    (jsonMarshal (buildAnomaly X cfg env)).message = ascii "Detected error in logs: " ++ X := by
  have hX := jsonString_of_valid X 0 hvalid
  refine ⟨?_, ?_⟩
  · show [jsonString 0 X] = [X]
    rw [hX]
  · show jsonString 0 (ascii "Detected error in logs: " ++ X) = _
    rw [jsonString_ascii_append X (ascii "Detected error in logs: ") (by decide), hX]

/-! ## The classifier and the reporter -/

/-- C1: the classifier `(?i)(error|exception|fail)` reports a match on a chunk
if and only if the chunk contains, as a substring and in any mix of upper and
lower case letters, one of "error", "exception", "fail"; the empty chunk does
not match. -/
theorem classifier_match_iff_trigger :
    (∀ chunk : GoString, errorRegex.MatchString chunk = true ↔
      ∃ t ∈ [ascii "error", ascii "exception", ascii "fail"], ContainsTerm t chunk) ∧
    errorRegex.MatchString [] = false :=
  ⟨fun chunk => errorRegex_iff chunk, errorRegex_nil⟩

/-- C2: the event `reportAnomaly` builds from matched text `X` has `Logs = [X]`,
`Confidence = 1.0`, `Severity = "Critical"` and the service id of the
configuration; it is the one event marshalled and posted. -/
theorem reportAnomaly_event_fields (X : GoString) (cfg : Config) (env : ReportEnv) :
    anomalyCalls (reportAnomaly X cfg env) = [jsonMarshal (buildAnomaly X cfg env)] ∧
    (buildAnomaly X cfg env).Logs = [X] ∧
    (buildAnomaly X cfg env).Confidence = 1 ∧
    (buildAnomaly X cfg env).Severity = ascii "Critical" ∧
    (buildAnomaly X cfg env).ServiceID = cfg.ServiceID :=
  ⟨anomalyCalls_reportAnomaly X cfg env, rfl, rfl, rfl, rfl⟩

/-! ## One poll -/

/-- C9: a poll at offset `o` of a file of length `L` whose read does not fail
reads the `min 1024 (L - o)` bytes starting at `o` and moves the offset past
them; when that count is zero nothing happens at all (offset unchanged, no
effect); when it is not, the classifier is handed that chunk and nothing else. -/
theorem processLogFile_postcondition (content : GoString) (file : OsFile) (path : GoString)
    (cfg : Config) (env : PollEnv) (hread : env.readFails = false) :
    readChunk content file.offset =
        (content.drop file.offset).take (min 1024 (content.length - file.offset)) ∧
    (readChunk content file.offset).length = min 1024 (content.length - file.offset) ∧
    (processLogFile content file path errorRegex cfg env).1 =
        { file with offset := file.offset + min 1024 (content.length - file.offset) } ∧
    (min 1024 (content.length - file.offset) = 0 →
        processLogFile content file path errorRegex cfg env = (file, [])) ∧
    (min 1024 (content.length - file.offset) ≠ 0 →
        classified (processLogFile content file path errorRegex cfg env).2 =
          [readChunk content file.offset]) := by
  have hlen := readChunk_length content file.offset
  have hok := processLogFile_ok content file path cfg env hread
  refine ⟨?_, hlen, ?_, ?_, ?_⟩
  · unfold readChunk
    apply List.ext_getElem?
    intro i
    simp only [List.getElem?_take, List.getElem?_drop, List.length_drop]
    by_cases h1 : i < 1024
    · by_cases h2 : i < content.length - file.offset
      · simp [h1, h2]
      · have h3 : content.length ≤ file.offset + i := by omega
        simp [h1, h2, List.getElem?_eq_none h3]
    · simp [h1]
  · rw [hok, ← hlen]
    by_cases h : readChunk content file.offset = []
    · simp [h]
    · by_cases hm : errorRegex.MatchString (readChunk content file.offset) = true <;> simp [h, hm]
  · intro hz
    rw [← hlen] at hz
    rw [hok, if_pos (List.length_eq_zero.mp hz)]
  · intro hnz
    rw [← hlen] at hnz
    have h : readChunk content file.offset ≠ [] := fun h0 => hnz (by rw [h0]; rfl)
    rw [hok, if_neg h]
    by_cases hm : errorRegex.MatchString (readChunk content file.offset) = true
    · simp [hm, classified, classified_reportAnomaly]
    · simp [hm, classified]

theorem processLogFile_postcondition_witness :
    calmPoll.readFails = false ∧
    (processLogFile (ascii "App started\nfailed\n") { name := ascii "./test.log", offset := 12 }
      (ascii "./test.log") errorRegex mainConfig calmPoll).1 =
        { name := ascii "./test.log", offset := 12 + min 1024 (19 - 12) } :=
  ⟨rfl, (processLogFile_postcondition (ascii "App started\nfailed\n")
    { name := ascii "./test.log", offset := 12 } (ascii "./test.log") mainConfig calmPoll rfl).2.2.1⟩

/-- C5: a poll whose newly read chunk contains none of the trigger terms, in
any letter case, issues no outbound anomaly call; the chunk is consumed all the
same: the offset moves past it and it was handed to the classifier. -/
theorem no_trigger_no_anomaly_call (content : GoString) (file : OsFile) (path : GoString)
    (cfg : Config) (env : PollEnv) (hread : env.readFails = false)
    (hnone : ¬ HasTrigger (readChunk content file.offset)) :
    anomalyCalls (processLogFile content file path errorRegex cfg env).2 = [] ∧
    (processLogFile content file path errorRegex cfg env).1.offset =
      file.offset + (readChunk content file.offset).length ∧
    concatBytes (classified (processLogFile content file path errorRegex cfg env).2) =
      readChunk content file.offset := by
  have hm : ¬ errorRegex.MatchString (readChunk content file.offset) = true :=
    fun h => hnone ((errorRegex_iff _).mp h)
  rw [processLogFile_ok content file path cfg env hread]
  by_cases h : readChunk content file.offset = []
  · simp [h, anomalyCalls, classified, concatBytes]
  · simp [h, hm, anomalyCalls, classified, concatBytes]

theorem no_trigger_no_anomaly_call_witness :
    calmPoll.readFails = false ∧
    ¬ HasTrigger (readChunk (ascii "2024-01-01 INFO all good") testLogAtStart.offset) ∧
    anomalyCalls (processLogFile (ascii "2024-01-01 INFO all good") testLogAtStart
      (ascii "./test.log") errorRegex mainConfig calmPoll).2 = [] ∧
    (processLogFile (ascii "2024-01-01 INFO all good") testLogAtStart
      (ascii "./test.log") errorRegex mainConfig calmPoll).1.offset = 24 :=
  have hnone : ¬ HasTrigger (readChunk (ascii "2024-01-01 INFO all good") testLogAtStart.offset) :=
    fun h => absurd ((errorRegex_iff _).mpr h) (by decide)
  ⟨rfl, hnone,
    (no_trigger_no_anomaly_call (ascii "2024-01-01 INFO all good") testLogAtStart
      (ascii "./test.log") mainConfig calmPoll rfl hnone).1,
    (no_trigger_no_anomaly_call (ascii "2024-01-01 INFO all good") testLogAtStart
      (ascii "./test.log") mainConfig calmPoll rfl hnone).2.1⟩

/-! ## Polling cycles on one cursor -/

/-- What a poll whose read does not fail does to the offset and hands to the
classifier, whatever the verdict. -/
theorem poll_step (content : GoString) (file : OsFile) (path : GoString)
    (cfg : Config) (env : PollEnv) (hread : env.readFails = false) :
    (processLogFile content file path errorRegex cfg env).1 =
      { file with offset := file.offset + (readChunk content file.offset).length } ∧
    concatBytes (classified (processLogFile content file path errorRegex cfg env).2) =
      readChunk content file.offset := by
  rw [processLogFile_ok content file path cfg env hread]
  by_cases h : readChunk content file.offset = []
  · simp [h, classified, concatBytes]
  · by_cases hm : errorRegex.MatchString (readChunk content file.offset) = true
    · simp [h, hm, classified, concatBytes, classified_reportAnomaly]
    · simp [h, hm, classified, concatBytes]

/-- No poll moves the offset back or changes the file the handle is on. -/
theorem poll_offset_le (content : GoString) (file : OsFile) (path : GoString)
    (cfg : Config) (env : PollEnv) :
    file.offset ≤ (processLogFile content file path errorRegex cfg env).1.offset ∧
    (processLogFile content file path errorRegex cfg env).1.name = file.name := by
  cases hread : env.readFails
  · rw [(poll_step content file path cfg env hread).1]
    exact ⟨Nat.le_add_right _ _, rfl⟩
  · rw [processLogFile_fail content file path errorRegex cfg env hread]
    exact ⟨Nat.le_refl _, rfl⟩

theorem pollCycles_cons (path : GoString) (cfg : Config) (content : GoString) (file : OsFile)
    (appended : GoString) (env : PollEnv) (later : List (GoString × PollEnv)) :
    pollCycles path cfg content file ((appended, env) :: later) =
      ((pollCycles path cfg (content ++ appended)
          (processLogFile (content ++ appended) file path errorRegex cfg env).1 later).1,
        (processLogFile (content ++ appended) file path errorRegex cfg env).2 ::
          (pollCycles path cfg (content ++ appended)
            (processLogFile (content ++ appended) file path errorRegex cfg env).1 later).2) :=
  rfl

theorem pollCycles_nil (path : GoString) (cfg : Config) (content : GoString) (file : OsFile) :
    pollCycles path cfg content file [] = (file, []) :=
  rfl

theorem poll_offset (content : GoString) (file : OsFile) (path : GoString)
    (cfg : Config) (env : PollEnv) (hread : env.readFails = false) :
    (processLogFile content file path errorRegex cfg env).1.offset =
      file.offset + (readChunk content file.offset).length := by
  rw [(poll_step content file path cfg env hread).1]

theorem pollCycles_offset_le (path : GoString) (cfg : Config) :
    ∀ (cycles : List (GoString × PollEnv)) (content : GoString) (file : OsFile),
      file.offset ≤ (pollCycles path cfg content file cycles).1.offset := by
  intro cycles
  induction cycles with
  | nil => intro content file; exact Nat.le_refl _
  | cons c later ih =>
    intro content file
    obtain ⟨appended, env⟩ := c
    rw [pollCycles_cons]
    exact Nat.le_trans (poll_offset_le (content ++ appended) file path cfg env).1 (ih _ _)

theorem pollCycles_append (path : GoString) (cfg : Config) :
    ∀ (before after : List (GoString × PollEnv)) (content : GoString) (file : OsFile),
      (pollCycles path cfg content file (before ++ after)).1 =
        (pollCycles path cfg (content ++ concatBytes (before.map Prod.fst))
          (pollCycles path cfg content file before).1 after).1 := by
  intro before
  induction before with
  | nil => intro after content file; simp [concatBytes, pollCycles]
  | cons c later ih =>
    intro after content file
    obtain ⟨appended, env⟩ := c
    rw [List.cons_append, pollCycles_cons, pollCycles_cons]
    simp only [List.map_cons, concatBytes]
    rw [ih, List.append_assoc]

/-- The chunk a poll reads is the start of what lies beyond the offset, also
when more is appended to the file later. -/
theorem readChunk_eq_take (content later : GoString) (offset : Nat)
    (hle : offset ≤ content.length) :
    readChunk content offset =
      ((content ++ later).drop offset).take (readChunk content offset).length := by
  rw [List.drop_append_of_le_length hle]
  have hlen : (readChunk content offset).length ≤ (content.drop offset).length := by
    rw [readChunk_length, List.length_drop]
    exact Nat.min_le_right _ _
  rw [List.take_append_of_le_length hlen]
  unfold readChunk
  rw [List.length_take]
  exact List.take_eq_take.mpr (by omega)

/-- Over polling cycles without a failing read, from a cursor inside the file:
the bytes delivered are those between the first and the last offset. -/
theorem pollCycles_delivered (path : GoString) (cfg : Config) :
    ∀ (cycles : List (GoString × PollEnv)) (content : GoString) (file : OsFile),
      file.offset ≤ content.length →
      (∀ c ∈ cycles, c.2.readFails = false) →
      (pollCycles path cfg content file cycles).1.offset ≤
        (content ++ concatBytes (cycles.map Prod.fst)).length ∧
      delivered (pollCycles path cfg content file cycles).2 =
        ((content ++ concatBytes (cycles.map Prod.fst)).drop file.offset).take
          ((pollCycles path cfg content file cycles).1.offset - file.offset) := by
  intro cycles
  induction cycles with
  | nil =>
    intro content file hle _
    simp [pollCycles, delivered, concatBytes, hle]
  | cons c later ih =>
    intro content file hle hread
    obtain ⟨appended, env⟩ := c
    have henv : env.readFails = false := hread (appended, env) (List.mem_cons_self _ _)
    have hlater : ∀ c ∈ later, c.2.readFails = false :=
      fun c hc => hread c (List.mem_cons_of_mem _ hc)
    have hstep := poll_step (content ++ appended) file path cfg env henv
    have hle1 : file.offset ≤ (content ++ appended).length := by
      rw [List.length_append]; omega
    have hchunk := readChunk_length (content ++ appended) file.offset
    have hle2 : (processLogFile (content ++ appended) file path errorRegex cfg env).1.offset ≤
        (content ++ appended).length := by
      rw [hstep.1]
      show file.offset + (readChunk (content ++ appended) file.offset).length ≤ _
      rw [hchunk]; omega
    obtain ⟨ih1, ih2⟩ := ih (content ++ appended) _ hle2 hlater
    have hmono := pollCycles_offset_le path cfg later (content ++ appended)
      (processLogFile (content ++ appended) file path errorRegex cfg env).1
    rw [pollCycles_cons]
    simp only [List.map_cons, concatBytes, delivered]
    rw [← List.append_assoc]
    refine ⟨ih1, ?_⟩
    rw [ih2, hstep.2]
    have hoff : (processLogFile (content ++ appended) file path errorRegex cfg env).1.offset =
        file.offset + (readChunk (content ++ appended) file.offset).length := by
      rw [hstep.1]
    rw [hoff] at hmono ⊢
    have hsplit : (pollCycles path cfg (content ++ appended)
        (processLogFile (content ++ appended) file path errorRegex cfg env).1 later).1.offset -
          file.offset =
        (readChunk (content ++ appended) file.offset).length +
          ((pollCycles path cfg (content ++ appended)
            (processLogFile (content ++ appended) file path errorRegex cfg env).1 later).1.offset -
            (file.offset + (readChunk (content ++ appended) file.offset).length)) := by
      omega
    rw [hsplit, List.take_add, List.drop_drop,
      ← readChunk_eq_take (content ++ appended) (concatBytes (later.map Prod.fst)) file.offset hle1]

/-- When no cycle appends more than one buffer, a cursor that starts at the end
of the file is at the end again after every poll. -/
theorem pollCycles_caught_up (path : GoString) (cfg : Config) :
    ∀ (cycles : List (GoString × PollEnv)) (content : GoString) (file : OsFile),
      file.offset = content.length →
      (∀ c ∈ cycles, c.2.readFails = false) →
      (∀ c ∈ cycles, c.1.length ≤ 1024) →
      (pollCycles path cfg content file cycles).1.offset =
        (content ++ concatBytes (cycles.map Prod.fst)).length := by
  intro cycles
  induction cycles with
  | nil =>
    intro content file hstart _ _
    simp [pollCycles, concatBytes, hstart]
  | cons c later ih =>
    intro content file hstart hread hsmall
    obtain ⟨appended, env⟩ := c
    have henv : env.readFails = false := hread (appended, env) (List.mem_cons_self _ _)
    have happ : appended.length ≤ 1024 := hsmall (appended, env) (List.mem_cons_self _ _)
    have hstep := poll_step (content ++ appended) file path cfg env henv
    have hchunk := readChunk_length (content ++ appended) file.offset
    have hoff : (processLogFile (content ++ appended) file path errorRegex cfg env).1.offset =
        (content ++ appended).length := by
      rw [hstep.1]
      show file.offset + (readChunk (content ++ appended) file.offset).length = _
      rw [hchunk, List.length_append, hstart]; omega
    rw [pollCycles_cons]
    simp only [List.map_cons, concatBytes]
    rw [← List.append_assoc]
    exact ih (content ++ appended) _ hoff (fun c hc => hread c (List.mem_cons_of_mem _ hc))
      (fun c hc => hsmall c (List.mem_cons_of_mem _ hc))

/-- C3 (as amended): for a cursor at end-of-file when watching starts and
polling cycles without a failing read, the chunks handed to the classifier,
concatenated in poll order, are the appended bytes between the first and the
last offset, a prefix of all appended bytes with nothing twice and nothing
skipped; they are all the appended bytes when no cycle appends more than 1024
bytes; and the offset never decreases along the run. -/
theorem delivered_equals_consumed_bytes (path : GoString) (cfg : Config) (content : GoString)
    (file : OsFile) (cycles : List (GoString × PollEnv))
    (hstart : file.offset = content.length)
    (hread : ∀ c ∈ cycles, c.2.readFails = false) :
    delivered (pollCycles path cfg content file cycles).2 =
      (concatBytes (cycles.map Prod.fst)).take
        ((pollCycles path cfg content file cycles).1.offset - file.offset) ∧
    ((∀ c ∈ cycles, c.1.length ≤ 1024) →
      delivered (pollCycles path cfg content file cycles).2 =
        concatBytes (cycles.map Prod.fst)) ∧
    (∀ before after, cycles = before ++ after →
      file.offset ≤ (pollCycles path cfg content file before).1.offset ∧
      (pollCycles path cfg content file before).1.offset ≤
        (pollCycles path cfg content file cycles).1.offset) := by
  have hgen := (pollCycles_delivered path cfg cycles content file (Nat.le_of_eq hstart) hread).2
  have hdrop : (content ++ concatBytes (cycles.map Prod.fst)).drop file.offset =
      concatBytes (cycles.map Prod.fst) := by
    rw [hstart]
    exact List.drop_left _ _
  rw [hdrop] at hgen
  refine ⟨hgen, ?_, ?_⟩
  · intro hsmall
    have hend := pollCycles_caught_up path cfg cycles content file hstart hread hsmall
    rw [hgen, hend, hstart, List.length_append, Nat.add_sub_cancel_left]
    exact List.take_length _
  · intro before after hsplit
    refine ⟨pollCycles_offset_le path cfg before content file, ?_⟩
    rw [hsplit, pollCycles_append]
    exact pollCycles_offset_le path cfg after _ _

theorem delivered_equals_consumed_bytes_witness :
    ({ name := ascii "./test.log", offset := 12 } : OsFile).offset =
      (ascii "App started\n").length ∧
    delivered (pollCycles (ascii "./test.log") mainConfig (ascii "App started\n")
      { name := ascii "./test.log", offset := 12 }
      [(ascii "db error\n", calmPoll), ([], calmPoll), (ascii "ok\n", calmPoll)]).2 =
      ascii "db error\nok\n" :=
  ⟨rfl, (delivered_equals_consumed_bytes (ascii "./test.log") mainConfig (ascii "App started\n")
      { name := ascii "./test.log", offset := 12 }
      [(ascii "db error\n", calmPoll), ([], calmPoll), (ascii "ok\n", calmPoll)] rfl
      (by decide)).2.1 (by decide)⟩

/-- C3 as stated fails: a file that is empty at watch start receives 1025
bytes and is polled once, without a read failure; the classifier is handed the
first 1024 bytes, not the 1025 appended. -/
theorem delivered_misses_appended_bytes :
    testLogAtStart.offset = ([] : GoString).length ∧
    calmPoll.readFails = false ∧
    delivered (pollCycles (ascii "./test.log") mainConfig [] testLogAtStart
      [(List.replicate 1025 120, calmPoll)]).2 = List.replicate 1024 120 ∧
    delivered (pollCycles (ascii "./test.log") mainConfig [] testLogAtStart
      [(List.replicate 1025 120, calmPoll)]).2 ≠ List.replicate 1025 120 := by
  have hval : delivered (pollCycles (ascii "./test.log") mainConfig [] testLogAtStart
      [(List.replicate 1025 120, calmPoll)]).2 = List.replicate 1024 120 := by
    rw [pollCycles_cons]
    simp only [delivered, pollCycles, List.append_nil, List.nil_append]
    rw [(poll_step _ _ _ _ _ rfl).2]
    simp only [readChunk, testLogAtStart, List.drop_zero, List.take_replicate]
    rfl
  refine ⟨rfl, rfl, hval, ?_⟩
  rw [hval]
  intro h
  have hlen := congrArg List.length h
  simp only [List.length_replicate] at hlen
  omega

/-! ## Lemmas on the map of cursors -/

theorem load_store (m : FileMap) (p q : GoString) (f : OsFile) :
    (m.store p f).load q = if p = q then some f else m.load q := by
  induction m with
  | nil => simp [FileMap.store, FileMap.load]
  | cons kv rest ih =>
    obtain ⟨k, v⟩ := kv
    by_cases hk : k = p
    · subst hk
      by_cases hq : k = q <;> simp [FileMap.store, FileMap.load, hq]
    · by_cases hq : k = q
      · subst hq
        have hp : ¬ p = k := fun h => hk h.symm
        simp [FileMap.store, FileMap.load, hk, hp]
      · simp [FileMap.store, FileMap.load, hk, hq, ih]

theorem load_eq_none_iff (m : FileMap) (p : GoString) : m.load p = none ↔ p ∉ m.keys := by
  induction m with
  | nil => simp [FileMap.load, FileMap.keys]
  | cons kv rest ih =>
    obtain ⟨k, v⟩ := kv
    by_cases hk : k = p
    · simp [FileMap.load, FileMap.keys, hk]
    · have hp : ¬ p = k := fun h => hk h.symm
      simp only [FileMap.load, hk, if_false, ih]
      simp [FileMap.keys, hp]

theorem keys_store (m : FileMap) (p : GoString) (f : OsFile) :
    (m.store p f).keys = if p ∈ m.keys then m.keys else m.keys ++ [p] := by
  induction m with
  | nil => simp [FileMap.store, FileMap.keys]
  | cons kv rest ih =>
    obtain ⟨k, v⟩ := kv
    by_cases hk : k = p
    · simp [FileMap.store, FileMap.keys, hk]
    · have hp : ¬ p = k := fun h => hk h.symm
      have ih2 : List.map Prod.fst (FileMap.store rest p f) =
          if p ∈ List.map Prod.fst rest then List.map Prod.fst rest
          else List.map Prod.fst rest ++ [p] := ih
      simp only [FileMap.store, hk, if_false, FileMap.keys, List.map_cons, List.mem_cons, hp,
        false_or, ih2]
      split_ifs <;> simp

theorem keys_store_of_load (m : FileMap) (p : GoString) (f g : OsFile)
    (h : m.load p = some f) : (m.store p g).keys = m.keys := by
  have hmem : p ∈ m.keys := by
    by_contra hn
    rw [(load_eq_none_iff m p).mpr hn] at h
    exact Option.noConfusion h
  rw [keys_store, if_pos hmem]

theorem nodup_keys_store (m : FileMap) (p : GoString) (f : OsFile) (h : m.keys.Nodup) :
    (m.store p f).keys.Nodup := by
  rw [keys_store]
  split_ifs with hmem
  · exact h
  · exact List.nodup_append.mpr ⟨h, List.nodup_singleton p, by
      intro a ha hb
      rw [List.mem_singleton] at hb
      exact hmem (hb ▸ ha)⟩

/-! ## Lemmas on one tick -/

theorem rangeFiles_cons_none (cfg : Config) (disk : Disk) (poll : GoString → PollEnv)
    (path : GoString) (later : List GoString) (files : FileMap)
    (h : files.load path = none) :
    rangeFiles cfg disk poll (path :: later) files = rangeFiles cfg disk poll later files := by
  simp only [rangeFiles, h]

theorem rangeFiles_cons_some (cfg : Config) (disk : Disk) (poll : GoString → PollEnv)
    (path : GoString) (later : List GoString) (files : FileMap) (file : OsFile)
    (h : files.load path = some file) :
    rangeFiles cfg disk poll (path :: later) files =
      ((rangeFiles cfg disk poll later (files.store path
          (processLogFile (disk file.name) file path errorRegex cfg (poll path)).1)).1,
        (path, (processLogFile (disk file.name) file path errorRegex cfg (poll path)).2) ::
          (rangeFiles cfg disk poll later (files.store path
            (processLogFile (disk file.name) file path errorRegex cfg (poll path)).1)).2) := by
  simp only [rangeFiles, h]

theorem rangeFiles_keys (cfg : Config) (disk : Disk) (poll : GoString → PollEnv) :
    ∀ (order : List GoString) (files : FileMap),
      (rangeFiles cfg disk poll order files).1.keys = files.keys := by
  intro order
  induction order with
  | nil => intro files; rfl
  | cons path later ih =>
    intro files
    cases h : files.load path with
    | none => rw [rangeFiles_cons_none _ _ _ _ _ _ h]; exact ih files
    | some file =>
      rw [rangeFiles_cons_some _ _ _ _ _ _ _ h]
      exact (ih _).trans (keys_store_of_load files path file _ h)

theorem rangeFiles_paths (cfg : Config) (disk : Disk) (poll : GoString → PollEnv) :
    ∀ (order : List GoString) (files : FileMap),
      (rangeFiles cfg disk poll order files).2.map Prod.fst =
        order.filter (fun q => decide (q ∈ files.keys)) := by
  intro order
  induction order with
  | nil => intro files; rfl
  | cons path later ih =>
    intro files
    cases h : files.load path with
    | none =>
      have hmem : path ∉ files.keys := (load_eq_none_iff files path).mp h
      rw [rangeFiles_cons_none _ _ _ _ _ _ h, ih files]
      simp [List.filter_cons, hmem]
    | some file =>
      have hmem : path ∈ files.keys := by
        by_contra hn
        rw [(load_eq_none_iff files path).mpr hn] at h
        exact Option.noConfusion h
      rw [rangeFiles_cons_some _ _ _ _ _ _ _ h]
      simp only [List.map_cons]
      rw [ih, keys_store_of_load files path file _ h]
      simp [List.filter_cons, hmem]

/-- A path that `range` does not yield is not polled and keeps its cursor. -/
theorem rangeFiles_not_mem (cfg : Config) (disk : Disk) (poll : GoString → PollEnv)
    (p : GoString) :
    ∀ (order : List GoString) (files : FileMap), p ∉ order →
      (rangeFiles cfg disk poll order files).2.filter (fun entry => decide (entry.1 = p)) = [] ∧
      (rangeFiles cfg disk poll order files).1.load p = files.load p := by
  intro order
  induction order with
  | nil => intro files _; exact ⟨rfl, rfl⟩
  | cons path later ih =>
    intro files hp
    have hne : ¬ path = p := fun h => hp (h ▸ List.mem_cons_self _ _)
    have hlater : p ∉ later := fun h => hp (List.mem_cons_of_mem _ h)
    cases h : files.load path with
    | none => rw [rangeFiles_cons_none _ _ _ _ _ _ h]; exact ih files hlater
    | some file =>
      rw [rangeFiles_cons_some _ _ _ _ _ _ _ h]
      obtain ⟨ih1, ih2⟩ := ih (files.store path
        (processLogFile (disk file.name) file path errorRegex cfg (poll path)).1) hlater
      refine ⟨?_, ?_⟩
      · simp only [List.filter_cons, hne, decide_False, Bool.false_eq_true, if_false]
        exact ih1
      · rw [ih2, load_store, if_neg hne]

/-- In a tick whose `range` yields `p` once, the path is polled once, on its
own cursor and its own file. -/
theorem rangeFiles_poll_of (cfg : Config) (disk : Disk) (poll : GoString → PollEnv)
    (p : GoString) (f : OsFile) :
    ∀ (order : List GoString) (files : FileMap), order.Nodup → p ∈ order →
      files.load p = some f →
      (rangeFiles cfg disk poll order files).2.filter (fun entry => decide (entry.1 = p)) =
        [(p, (processLogFile (disk f.name) f p errorRegex cfg (poll p)).2)] ∧
      (rangeFiles cfg disk poll order files).1.load p =
        some (processLogFile (disk f.name) f p errorRegex cfg (poll p)).1 := by
  intro order
  induction order with
  | nil => intro files _ hp _; exact absurd hp (List.not_mem_nil _)
  | cons path later ih =>
    intro files hnodup hp hload
    have hnot : path ∉ later := (List.nodup_cons.mp hnodup).1
    have hlaterNodup : later.Nodup := (List.nodup_cons.mp hnodup).2
    by_cases hpath : path = p
    · subst hpath
      rw [rangeFiles_cons_some _ _ _ _ _ _ _ hload]
      obtain ⟨h1, h2⟩ := rangeFiles_not_mem cfg disk poll path later (files.store path
        (processLogFile (disk f.name) f path errorRegex cfg (poll path)).1) hnot
      refine ⟨?_, ?_⟩
      · simp only [List.filter_cons, decide_True, if_true]
        rw [h1]
      · rw [h2, load_store, if_pos rfl]
    · have hmem : p ∈ later := by
        rcases List.mem_cons.mp hp with h | h
        · exact absurd h.symm hpath
        · exact h
      cases h : files.load path with
      | none => rw [rangeFiles_cons_none _ _ _ _ _ _ h]; exact ih files hlaterNodup hmem hload
      | some file =>
        rw [rangeFiles_cons_some _ _ _ _ _ _ _ h]
        have hload2 : (files.store path
            (processLogFile (disk file.name) file path errorRegex cfg (poll path)).1).load p =
            some f := by
          rw [load_store, if_neg hpath]; exact hload
        obtain ⟨ih1, ih2⟩ := ih _ hlaterNodup hmem hload2
        refine ⟨?_, ih2⟩
        simp only [List.filter_cons, hpath, decide_False, Bool.false_eq_true, if_false]
        exact ih1

/-- No poll opens a file. -/
theorem opensOf_processLogFile (content : GoString) (file : OsFile) (path : GoString)
    (cfg : Config) (env : PollEnv) :
    opensOf (processLogFile content file path errorRegex cfg env).2 = [] := by
  cases hread : env.readFails
  · rw [processLogFile_ok content file path cfg env hread]
    by_cases h : readChunk content file.offset = []
    · simp [h, opensOf]
    · by_cases hm : errorRegex.MatchString (readChunk content file.offset) = true
      · simp only [h, hm, if_false, if_true, reportAnomaly]
        cases env.report.postFails <;> simp [opensOf]
      · simp [h, hm, opensOf]
  · rw [processLogFile_fail content file path errorRegex cfg env hread]
    rfl

theorem rangeFiles_no_open (cfg : Config) (disk : Disk) (poll : GoString → PollEnv) :
    ∀ (order : List GoString) (files : FileMap),
      ∀ entry ∈ (rangeFiles cfg disk poll order files).2, opensOf entry.2 = [] := by
  intro order
  induction order with
  | nil => intro files entry h; exact absurd h (List.not_mem_nil _)
  | cons path later ih =>
    intro files entry hentry
    cases h : files.load path with
    | none =>
      rw [rangeFiles_cons_none _ _ _ _ _ _ h] at hentry
      exact ih files entry hentry
    | some file =>
      rw [rangeFiles_cons_some _ _ _ _ _ _ _ h] at hentry
      rcases List.mem_cons.mp hentry with heq | hin
      · rw [heq]
        exact opensOf_processLogFile _ _ _ _ _
      · exact ih _ entry hin

/-! ## Lemmas on the set-up loop -/

theorem mem_openedPaths_iff (q : GoString) :
    ∀ (paths : List GoString) (openFails : Nat → Bool),
      q ∈ openedPaths openFails paths ↔ ∃ i, paths[i]? = some q ∧ openFails i = false := by
  intro paths
  induction paths with
  | nil => intro openFails; simp [openedPaths]
  | cons path later ih =>
    intro openFails
    have ih2 := ih (fun i => openFails (i + 1))
    cases h0 : openFails 0
    · simp only [openedPaths, h0, Bool.false_eq_true, if_false, List.mem_cons, ih2]
      constructor
      · rintro (h | ⟨i, h1, h2⟩)
        · exact ⟨0, by simp [h], h0⟩
        · exact ⟨i + 1, by simpa using h1, h2⟩
      · rintro ⟨i, h1, h2⟩
        cases i with
        | zero => left; simpa using h1.symm
        | succ j => right; exact ⟨j, by simpa using h1, h2⟩
    · simp only [openedPaths, h0, if_true, ih2]
      constructor
      · rintro ⟨i, h1, h2⟩
        exact ⟨i + 1, by simpa using h1, h2⟩
      · rintro ⟨i, h1, h2⟩
        cases i with
        | zero => rw [h0] at h2; exact absurd h2 (by decide)
        | succ j => exact ⟨j, by simpa using h1, h2⟩

theorem openLoop_load (disk : Disk) (q : GoString) :
    ∀ (paths : List GoString) (openFails : Nat → Bool) (files : FileMap),
      (openLoop disk openFails paths files).1.load q =
        if q ∈ openedPaths openFails paths then
          some { name := q, offset := (disk q).length }
        else files.load q := by
  intro paths
  induction paths with
  | nil => intro openFails files; simp [openLoop, openedPaths]
  | cons path later ih =>
    intro openFails files
    cases h0 : openFails 0
    · simp only [openLoop, openedPaths, h0, Bool.false_eq_true, if_false, List.mem_cons]
      rw [ih, load_store]
      by_cases hq : path = q
      · subst hq
        simp
      · have hq2 : ¬ q = path := fun h => hq h.symm
        simp [hq, hq2]
    · simp only [openLoop, openedPaths, h0, if_true]
      rw [ih]

theorem openLoop_nodup (disk : Disk) :
    ∀ (paths : List GoString) (openFails : Nat → Bool) (files : FileMap),
      files.keys.Nodup → (openLoop disk openFails paths files).1.keys.Nodup := by
  intro paths
  induction paths with
  | nil => intro openFails files h; exact h
  | cons path later ih =>
    intro openFails files h
    cases h0 : openFails 0
    · simp only [openLoop, h0, Bool.false_eq_true, if_false]
      exact ih _ _ (nodup_keys_store files path _ h)
    · simp only [openLoop, h0, if_true]
      exact ih _ _ h

theorem openLoop_opens (disk : Disk) :
    ∀ (paths : List GoString) (openFails : Nat → Bool) (files : FileMap),
      opensOf (openLoop disk openFails paths files).2 = paths := by
  intro paths
  induction paths with
  | nil => intro openFails files; rfl
  | cons path later ih =>
    intro openFails files
    cases h0 : openFails 0
    · simp only [openLoop, h0, Bool.false_eq_true, if_false, opensOf, ih]
    · simp only [openLoop, h0, if_true, opensOf, ih]

theorem mem_keys_openLoop (disk : Disk) (openFails : Nat → Bool) (paths : List GoString)
    (q : GoString) :
    q ∈ (openLoop disk openFails paths []).1.keys ↔ q ∈ openedPaths openFails paths := by
  have h := openLoop_load disk q paths openFails []
  have hnone := load_eq_none_iff (openLoop disk openFails paths []).1 q
  by_cases hq : q ∈ openedPaths openFails paths
  · rw [if_pos hq] at h
    constructor
    · intro _; exact hq
    · intro _
      by_contra hn
      rw [hnone.mpr hn] at h
      exact Option.noConfusion h
  · rw [if_neg hq] at h
    constructor
    · intro hk
      exact absurd hk (hnone.mp h)
    · intro h2; exact absurd h2 hq

/-! ## Lemmas on the loop over ticks -/

theorem runTicks_cons (cfg : Config) (st : WatchState) (env : TickEnv) (later : List TickEnv) :
    runTicks cfg st (env :: later) =
      ((runTicks cfg (tick cfg st env).1 later).1,
        (tick cfg st env).2 :: (runTicks cfg (tick cfg st env).1 later).2) :=
  rfl

theorem tick_keys (cfg : Config) (st : WatchState) (env : TickEnv) :
    (tick cfg st env).1.files.keys = st.files.keys :=
  rangeFiles_keys cfg _ env.poll env.order st.files

theorem tick_paths (cfg : Config) (st : WatchState) (env : TickEnv) :
    (tick cfg st env).2.map Prod.fst =
      env.order.filter (fun q => decide (q ∈ st.files.keys)) :=
  rangeFiles_paths cfg _ env.poll env.order st.files

theorem runTicks_keys (cfg : Config) :
    ∀ (ticks : List TickEnv) (st : WatchState),
      (runTicks cfg st ticks).1.files.keys = st.files.keys := by
  intro ticks
  induction ticks with
  | nil => intro st; rfl
  | cons env later ih =>
    intro st
    rw [runTicks_cons]
    exact (ih _).trans (tick_keys cfg st env)

theorem runTicks_paths (cfg : Config) :
    ∀ (ticks : List TickEnv) (st : WatchState),
      polledPaths (runTicks cfg st ticks).2 =
        ticks.map (fun env => env.order.filter (fun q => decide (q ∈ st.files.keys))) := by
  intro ticks
  induction ticks with
  | nil => intro st; rfl
  | cons env later ih =>
    intro st
    have ih2 := ih (tick cfg st env).1
    rw [tick_keys] at ih2
    unfold polledPaths at ih2 ⊢
    rw [runTicks_cons]
    simp only [List.map_cons, ih2, tick_paths]

theorem runTicks_no_open (cfg : Config) :
    ∀ (ticks : List TickEnv) (st : WatchState),
      ∀ polls ∈ (runTicks cfg st ticks).2, ∀ entry ∈ polls, opensOf entry.2 = [] := by
  intro ticks
  induction ticks with
  | nil => intro st polls h; exact absurd h (List.not_mem_nil _)
  | cons env later ih =>
    intro st polls hpolls
    rw [runTicks_cons] at hpolls
    rcases List.mem_cons.mp hpolls with heq | hin
    · rw [heq]
      exact rangeFiles_no_open cfg _ env.poll env.order st.files
    · exact ih _ polls hin

/-- With valid orders, each tick polls the keys in the order `range` yields them. -/
theorem runTicks_paths_valid (cfg : Config) (st : WatchState) (ticks : List TickEnv)
    (horder : ∀ env ∈ ticks, ValidOrder st.files env) :
    polledPaths (runTicks cfg st ticks).2 = ticks.map (fun env => env.order) := by
  rw [runTicks_paths]
  apply List.map_congr_left
  intro env henv
  apply List.filter_eq_self.mpr
  intro q hq
  exact decide_eq_true ((horder env henv).subset hq)

/-- Every cursor of the map is on the file of its key. -/
theorem openLoop_names (disk : Disk) (openFails : Nat → Bool) (paths : List GoString)
    (q : GoString) (f : OsFile) (h : (openLoop disk openFails paths []).1.load q = some f) :
    f.name = q := by
  rw [openLoop_load] at h
  split_ifs at h
  · rw [← Option.some.inj h]
  · exact Option.noConfusion h

theorem rangeFiles_names (cfg : Config) (disk : Disk) (poll : GoString → PollEnv) :
    ∀ (order : List GoString) (files : FileMap),
      (∀ q f, files.load q = some f → f.name = q) →
      ∀ q f, (rangeFiles cfg disk poll order files).1.load q = some f → f.name = q := by
  intro order
  induction order with
  | nil => intro files h; exact h
  | cons path later ih =>
    intro files hfiles
    cases h : files.load path with
    | none => rw [rangeFiles_cons_none _ _ _ _ _ _ h]; exact ih files hfiles
    | some file =>
      rw [rangeFiles_cons_some _ _ _ _ _ _ _ h]
      apply ih
      intro q f hq
      rw [load_store] at hq
      split_ifs at hq with hpq
      · rw [← Option.some.inj hq, ← hpq]
        exact (poll_offset_le _ file path cfg (poll path)).2.trans (hfiles path file h)
      · exact hfiles q f hq

theorem runTicks_names (cfg : Config) :
    ∀ (ticks : List TickEnv) (st : WatchState),
      (∀ q f, st.files.load q = some f → f.name = q) →
      ∀ q f, (runTicks cfg st ticks).1.files.load q = some f → f.name = q := by
  intro ticks
  induction ticks with
  | nil => intro st h; exact h
  | cons env later ih =>
    intro st hst
    rw [runTicks_cons]
    exact ih _ (rangeFiles_names cfg _ env.poll env.order st.files hst)

/-! ## The watcher -/

/-- C6: a configured path all of whose opens fail at watch start gets no
cursor, at start or later; files are opened in the set-up loop only, once per
configured entry, and no poll opens a file; every cursor reads the file of its
own key; so no tick polls that path (neither the classifier nor the reporter
sees its content); every path that did open has a cursor at the end of its
file and is polled in every tick, no path twice. -/
theorem failed_open_never_watched (cfg : Config) (disk : Disk) (openFails : Nat → Bool)
    (ticks : List TickEnv) (p : GoString)
    (hfail : ∀ i, cfg.LogPaths[i]? = some p → openFails i = true) :
    (watchLogs cfg disk openFails ticks).1.files.load p = none ∧
    (watchLogs cfg disk openFails ticks).2.2.1.files.load p = none ∧
    opensOf (watchLogs cfg disk openFails ticks).2.1 = cfg.LogPaths ∧
    (∀ polls ∈ (watchLogs cfg disk openFails ticks).2.2.2, ∀ entry ∈ polls,
      entry.1 ≠ p ∧ opensOf entry.2 = []) ∧
    (∀ q f, (watchLogs cfg disk openFails ticks).2.2.1.files.load q = some f →
      f.name = q ∧ f.name ≠ p) ∧
    (∀ q, (∃ i, cfg.LogPaths[i]? = some q ∧ openFails i = false) →
      (watchLogs cfg disk openFails ticks).1.files.load q =
        some { name := q, offset := (disk q).length } ∧
      ((∀ env ∈ ticks, ValidOrder (watchLogs cfg disk openFails ticks).1.files env) →
        ∀ paths ∈ polledPaths (watchLogs cfg disk openFails ticks).2.2.2,
          paths.Nodup ∧ q ∈ paths)) := by
  have hnot : p ∉ openedPaths openFails cfg.LogPaths := by
    intro hmem
    obtain ⟨i, h1, h2⟩ := (mem_openedPaths_iff p cfg.LogPaths openFails).mp hmem
    rw [hfail i h1] at h2
    exact absurd h2 (by decide)
  have hkey : p ∉ (openLoop disk openFails cfg.LogPaths []).1.keys :=
    fun h => hnot ((mem_keys_openLoop disk openFails cfg.LogPaths p).mp h)
  have hw : watchLogs cfg disk openFails ticks =
      ({ files := (openLoop disk openFails cfg.LogPaths []).1, disk := disk },
        (openLoop disk openFails cfg.LogPaths []).2,
        (runTicks cfg { files := (openLoop disk openFails cfg.LogPaths []).1, disk := disk }
          ticks).1,
        (runTicks cfg { files := (openLoop disk openFails cfg.LogPaths []).1, disk := disk }
          ticks).2) := rfl
  rw [hw]
  have hfinal : (runTicks cfg
      { files := (openLoop disk openFails cfg.LogPaths []).1, disk := disk } ticks).1.files.load
      p = none := by
    apply (load_eq_none_iff _ p).mpr
    rw [runTicks_keys]
    exact hkey
  refine ⟨(load_eq_none_iff _ p).mpr hkey, hfinal, openLoop_opens disk _ _ _, ?_, ?_, ?_⟩
  · intro polls hpolls entry hentry
    refine ⟨?_, runTicks_no_open cfg ticks _ polls hpolls entry hentry⟩
    intro heq
    have hpaths := runTicks_paths cfg ticks
      { files := (openLoop disk openFails cfg.LogPaths []).1, disk := disk }
    have h1 : polls.map Prod.fst ∈ polledPaths (runTicks cfg
        { files := (openLoop disk openFails cfg.LogPaths []).1, disk := disk } ticks).2 :=
      List.mem_map_of_mem _ hpolls
    rw [hpaths] at h1
    obtain ⟨env, _, henv⟩ := List.mem_map.mp h1
    have h2 : entry.1 ∈ polls.map Prod.fst := List.mem_map_of_mem _ hentry
    rw [← henv] at h2
    have h3 := of_decide_eq_true (List.mem_filter.mp h2).2
    exact hkey (heq ▸ h3)
  · intro q f hload
    have hname : f.name = q :=
      runTicks_names cfg ticks { files := (openLoop disk openFails cfg.LogPaths []).1, disk := disk }
        (fun q1 f1 h1 => openLoop_names disk openFails cfg.LogPaths q1 f1 h1) q f hload
    refine ⟨hname, ?_⟩
    intro hp
    rw [← hp, hname, hload] at hfinal
    exact Option.noConfusion hfinal
  · intro q hq
    have hmem : q ∈ openedPaths openFails cfg.LogPaths :=
      (mem_openedPaths_iff q cfg.LogPaths openFails).mpr hq
    refine ⟨?_, ?_⟩
    · show (openLoop disk openFails cfg.LogPaths []).1.load q = _
      rw [openLoop_load, if_pos hmem]
    · intro horder paths hpaths
      rw [runTicks_paths_valid cfg _ ticks horder] at hpaths
      obtain ⟨env, henv, heq⟩ := List.mem_map.mp hpaths
      have hperm : env.order.Perm (openLoop disk openFails cfg.LogPaths []).1.keys :=
        horder env henv
      rw [← heq]
      exact ⟨hperm.nodup_iff.mpr (openLoop_nodup disk _ _ [] List.nodup_nil),
        hperm.mem_iff.mpr ((mem_keys_openLoop disk openFails cfg.LogPaths q).mpr hmem)⟩

theorem failed_open_never_watched_witness :
    (∀ i, twoPaths.LogPaths[i]? = some pathA → firstOpenFails i = true) ∧
    (watchLogs twoPaths emptyDisk firstOpenFails [quietTick [pathB]]).1.files.load pathA = none ∧
    (∀ polls ∈ (watchLogs twoPaths emptyDisk firstOpenFails [quietTick [pathB]]).2.2.2,
      ∀ entry ∈ polls, entry.1 ≠ pathA ∧ opensOf entry.2 = []) :=
  have hfail : ∀ i, twoPaths.LogPaths[i]? = some pathA → firstOpenFails i = true :=
    fun i hi =>
      match i, hi with
      | 0, _ => rfl
      | 1, hi => absurd hi (by decide)
      | _ + 2, hi => absurd hi (by simp [twoPaths])
  ⟨hfail,
    (failed_open_never_watched twoPaths emptyDisk firstOpenFails [quietTick [pathB]] pathA
      hfail).1,
    (failed_open_never_watched twoPaths emptyDisk firstOpenFails [quietTick [pathB]] pathA
      hfail).2.2.2.1⟩

/-- C7 (as amended): in every tick each distinct configured path that opened
successfully is polled exactly once, in the order in which `range` yields the
keys of the map in that tick; that order is a permutation of those paths and
need not be the order of creation. -/
theorem each_tick_polls_opened_paths_once (cfg : Config) (disk : Disk)
    (openFails : Nat → Bool) (ticks : List TickEnv)
    (horder : ∀ env ∈ ticks, ValidOrder (openLoop disk openFails cfg.LogPaths []).1 env) :
    polledPaths (watchLogs cfg disk openFails ticks).2.2.2 = ticks.map (fun env => env.order) ∧
    ∀ paths ∈ polledPaths (watchLogs cfg disk openFails ticks).2.2.2,
      paths.Nodup ∧ paths.Perm (openedPaths openFails cfg.LogPaths).dedup := by
  have hpaths : polledPaths (watchLogs cfg disk openFails ticks).2.2.2 =
      ticks.map (fun env => env.order) :=
    runTicks_paths_valid cfg { files := (openLoop disk openFails cfg.LogPaths []).1, disk := disk }
      ticks horder
  have hnodup : (openLoop disk openFails cfg.LogPaths []).1.keys.Nodup :=
    openLoop_nodup disk _ _ [] List.nodup_nil
  have hkeys : (openLoop disk openFails cfg.LogPaths []).1.keys.Perm
      (openedPaths openFails cfg.LogPaths).dedup := by
    apply (List.perm_ext_iff_of_nodup hnodup (List.nodup_dedup _)).mpr
    intro q
    rw [List.mem_dedup]
    exact mem_keys_openLoop disk openFails cfg.LogPaths q
  refine ⟨hpaths, ?_⟩
  intro paths hmem
  rw [hpaths] at hmem
  obtain ⟨env, henv, heq⟩ := List.mem_map.mp hmem
  have hperm : env.order.Perm (openLoop disk openFails cfg.LogPaths []).1.keys := horder env henv
  rw [← heq]
  exact ⟨hperm.nodup_iff.mpr hnodup, hperm.trans hkeys⟩

theorem each_tick_polls_opened_paths_once_witness :
    (∀ env ∈ [quietTick [pathB, pathA], quietTick [pathA, pathB]],
      ValidOrder (openLoop emptyDisk everyOpenSucceeds twoPaths.LogPaths []).1 env) ∧
    polledPaths (watchLogs twoPaths emptyDisk everyOpenSucceeds
      [quietTick [pathB, pathA], quietTick [pathA, pathB]]).2.2.2 =
      [[pathB, pathA], [pathA, pathB]] :=
  have horder : ∀ env ∈ [quietTick [pathB, pathA], quietTick [pathA, pathB]],
      ValidOrder (openLoop emptyDisk everyOpenSucceeds twoPaths.LogPaths []).1 env := by
    intro env henv
    rcases List.mem_cons.mp henv with h | h
    · rw [h]; exact List.Perm.swap pathA pathB []
    · rw [List.mem_singleton.mp h]; exact List.Perm.refl _
  ⟨horder, (each_tick_polls_opened_paths_once twoPaths emptyDisk everyOpenSucceeds
    [quietTick [pathB, pathA], quietTick [pathA, pathB]] horder).1⟩

/-- C7 as stated fails. With two paths that both open, a tick in which `range`
yields the second key first polls the cursors against the order of creation;
and with one path configured twice, two cursors are created but the map keeps
one, so one of them is never polled. -/
theorem poll_order_is_not_creation_order :
    (ValidOrder (openLoop emptyDisk everyOpenSucceeds twoPaths.LogPaths []).1
        (quietTick [pathB, pathA]) ∧
      openedPaths everyOpenSucceeds twoPaths.LogPaths = [pathA, pathB] ∧
      polledPaths (watchLogs twoPaths emptyDisk everyOpenSucceeds
        [quietTick [pathB, pathA]]).2.2.2 = [[pathB, pathA]] ∧
      polledPaths (watchLogs twoPaths emptyDisk everyOpenSucceeds
        [quietTick [pathB, pathA]]).2.2.2 ≠
          [openedPaths everyOpenSucceeds twoPaths.LogPaths]) ∧
    (ValidOrder (openLoop emptyDisk everyOpenSucceeds samePathTwice.LogPaths []).1
        (quietTick [pathA]) ∧
      openedPaths everyOpenSucceeds samePathTwice.LogPaths = [pathA, pathA] ∧
      polledPaths (watchLogs samePathTwice emptyDisk everyOpenSucceeds
        [quietTick [pathA]]).2.2.2 = [[pathA]] ∧
      polledPaths (watchLogs samePathTwice emptyDisk everyOpenSucceeds
        [quietTick [pathA]]).2.2.2 ≠
          [openedPaths everyOpenSucceeds samePathTwice.LogPaths]) :=
  ⟨⟨List.Perm.swap pathA pathB [], by decide, by decide, by decide⟩,
    ⟨List.Perm.refl _, by decide, by decide, by decide⟩⟩

/-! ## Delivery failures -/

theorem attempts_reportAnomaly (logLine : GoString) (cfg : Config) (env : ReportEnv) :
    attempts (reportAnomaly logLine cfg env) =
      [.postAnomaly (cfg.BackendURL ++ ascii "/anomaly")
        (jsonMarshal (buildAnomaly logLine cfg env))] := by
  unfold reportAnomaly
  cases env.postFails <;> simp [attempts]

/-- The outcome of the POST changes neither the cursor nor the calls of a poll. -/
theorem processLogFile_delivery (content : GoString) (file : OsFile) (path : GoString)
    (cfg : Config) (env : PollEnv) :
    (processLogFile content file path errorRegex cfg env.delivered).1 =
      (processLogFile content file path errorRegex cfg env).1 ∧
    attempts (processLogFile content file path errorRegex cfg env.delivered).2 =
      attempts (processLogFile content file path errorRegex cfg env).2 := by
  rcases Bool.eq_false_or_eq_true env.readFails with hread | hread
  · rw [processLogFile_fail content file path errorRegex cfg env hread,
      processLogFile_fail content file path errorRegex cfg env.delivered hread]
    exact ⟨rfl, rfl⟩
  · rw [processLogFile_ok content file path cfg env hread,
      processLogFile_ok content file path cfg env.delivered hread]
    by_cases h : readChunk content file.offset = []
    · simp [h]
    · by_cases hm : errorRegex.MatchString (readChunk content file.offset) = true
      · simp only [h, hm, if_false, if_true, true_and]
        show attempts (Effect.logRead _ _ :: Effect.matchString _ :: reportAnomaly _ _ _) =
          attempts (Effect.logRead _ _ :: Effect.matchString _ :: reportAnomaly _ _ _)
        simp only [attempts, attempts_reportAnomaly]
        rfl
      · simp [h, hm]

theorem rangeFiles_delivery (cfg : Config) (disk : Disk) (poll : GoString → PollEnv) :
    ∀ (order : List GoString) (files : FileMap),
      (rangeFiles cfg disk (fun path => (poll path).delivered) order files).1 =
        (rangeFiles cfg disk poll order files).1 ∧
      (rangeFiles cfg disk (fun path => (poll path).delivered) order files).2.map
          (fun entry => (entry.1, attempts entry.2)) =
        (rangeFiles cfg disk poll order files).2.map (fun entry => (entry.1, attempts entry.2)) := by
  intro order
  induction order with
  | nil => intro files; exact ⟨rfl, rfl⟩
  | cons path later ih =>
    intro files
    cases h : files.load path with
    | none =>
      rw [rangeFiles_cons_none _ _ _ _ _ _ h, rangeFiles_cons_none _ _ _ _ _ _ h]
      exact ih files
    | some file =>
      rw [rangeFiles_cons_some _ _ _ _ _ _ _ h, rangeFiles_cons_some _ _ _ _ _ _ _ h]
      obtain ⟨h1, h2⟩ := processLogFile_delivery (disk file.name) file path cfg (poll path)
      simp only [List.map_cons]
      rw [h1, h2]
      obtain ⟨ih1, ih2⟩ := ih (files.store path
        (processLogFile (disk file.name) file path errorRegex cfg (poll path)).1)
      exact ⟨ih1, by rw [ih2]⟩

theorem runTicks_delivery (cfg : Config) :
    ∀ (ticks : List TickEnv) (st : WatchState),
      (runTicks cfg st (ticks.map TickEnv.allDelivered)).1 = (runTicks cfg st ticks).1 ∧
      attemptsOf (runTicks cfg st (ticks.map TickEnv.allDelivered)).2 =
        attemptsOf (runTicks cfg st ticks).2 := by
  intro ticks
  induction ticks with
  | nil => intro st; exact ⟨rfl, rfl⟩
  | cons env later ih =>
    intro st
    obtain ⟨h1, h2⟩ := rangeFiles_delivery cfg
      (fun path => st.disk path ++ env.appended path) env.poll env.order st.files
    have ht1 : (tick cfg st env.allDelivered).1 = (tick cfg st env).1 := by
      show WatchState.mk _ _ = WatchState.mk _ _
      congr 1
    have ht2 : (tick cfg st env.allDelivered).2.map (fun entry => (entry.1, attempts entry.2)) =
        (tick cfg st env).2.map (fun entry => (entry.1, attempts entry.2)) := h2
    rw [List.map_cons, runTicks_cons, runTicks_cons, ht1]
    obtain ⟨ih1, ih2⟩ := ih (tick cfg st env).1
    refine ⟨ih1, ?_⟩
    unfold attemptsOf at ih2 ⊢
    simp only [List.map_cons, ht2, ih2]

theorem attempts_startHeartbeat (cfg : Config) (beats : List Bool) :
    attempts (startHeartbeat cfg beats) =
      List.replicate beats.length (.postHeartbeat (cfg.BackendURL ++ ascii "/heartbeat")) := by
  induction beats with
  | nil => rfl
  | cons b later ih =>
    cases b <;>
      simp [startHeartbeat, heartbeatStep, attempts, List.replicate_succ, ih]

/-- C8: a delivery failure changes nothing but the log line. Whatever POSTs
fail, `reportAnomaly` posts its event once and is done, the heartbeat loop posts
once per tick, and the watcher state after any number of ticks and the chunks
classified and events attempted in every tick are those of the run in which
every delivery succeeds. -/
theorem delivery_failure_changes_no_tick (cfg : Config) (st : WatchState)
    (ticks : List TickEnv) (beats : List Bool) (X : GoString) (env : ReportEnv) :
    (runTicks cfg st ticks).1 = (runTicks cfg st (ticks.map TickEnv.allDelivered)).1 ∧
    attemptsOf (runTicks cfg st ticks).2 =
      attemptsOf (runTicks cfg st (ticks.map TickEnv.allDelivered)).2 ∧
    attempts (reportAnomaly X cfg env) =
      attempts (reportAnomaly X cfg { env with postFails := false }) ∧
    attempts (reportAnomaly X cfg env) =
      [.postAnomaly (cfg.BackendURL ++ ascii "/anomaly") (jsonMarshal (buildAnomaly X cfg env))] ∧
    attempts (startHeartbeat cfg beats) =
      attempts (startHeartbeat cfg (beats.map (fun _ => false))) ∧
    attempts (startHeartbeat cfg beats) =
      List.replicate beats.length (.postHeartbeat (cfg.BackendURL ++ ascii "/heartbeat")) := by
  refine ⟨(runTicks_delivery cfg ticks st).1.symm, (runTicks_delivery cfg ticks st).2.symm,
    ?_, attempts_reportAnomaly X cfg env, ?_, attempts_startHeartbeat cfg beats⟩
  · rw [attempts_reportAnomaly, attempts_reportAnomaly]
    rfl
  · rw [attempts_startHeartbeat, attempts_startHeartbeat, List.length_map]

/-! ## Chunks and trigger terms -/

theorem readChunk_appended (content appended : GoString) (offset : Nat)
    (hstart : offset = content.length) (hlen : appended.length ≤ 1024) :
    readChunk (content ++ appended) offset = appended := by
  unfold readChunk
  rw [hstart, List.drop_left, List.take_of_length_le hlen]

theorem anomalyCalls_poll_nomatch (content : GoString) (file : OsFile) (path : GoString)
    (cfg : Config) (env : PollEnv)
    (hm : errorRegex.MatchString (readChunk content file.offset) = false) :
    anomalyCalls (processLogFile content file path errorRegex cfg env).2 = [] := by
  rcases Bool.eq_false_or_eq_true env.readFails with hread | hread
  · rw [processLogFile_fail content file path errorRegex cfg env hread]
    rfl
  · rw [processLogFile_ok content file path cfg env hread, hm]
    by_cases h : readChunk content file.offset = [] <;> simp [h, anomalyCalls]

theorem anomalyCalls_poll_match (content : GoString) (file : OsFile) (path : GoString)
    (cfg : Config) (env : PollEnv) (hread : env.readFails = false)
    (hm : errorRegex.MatchString (readChunk content file.offset) = true) :
    anomalyCalls (processLogFile content file path errorRegex cfg env).2 =
      [jsonMarshal (buildAnomaly (readChunk content file.offset) cfg env.report)] := by
  have hne : readChunk content file.offset ≠ [] := by
    intro h
    rw [h, errorRegex_nil] at hm
    exact absurd hm (by decide)
  rw [processLogFile_ok content file path cfg env hread, if_neg hne, if_pos hm]
  show anomalyCalls (Effect.logRead _ _ :: Effect.matchString _ :: reportAnomaly _ _ _) = _
  simp only [anomalyCalls, anomalyCalls_reportAnomaly]

/-- A run of bytes `x` in front of a text does not change the verdict. -/
theorem MatchString_run (n : Nat) (rest : GoString) :
    errorRegex.MatchString (List.replicate n 120 ++ rest) = errorRegex.MatchString rest := by
  induction n with
  | zero => rfl
  | succ k ih =>
    have hx : errorRegex.matchPrefix (120 :: (List.replicate k 120 ++ rest)) = false := by
      simp [errorRegex, Regexp.matchPrefix, ascii_error, ascii_exception, ascii_fail,
        matchLiteral, matchRune, simpleFold]
    rw [List.replicate_succ, List.cons_append, Regexp.MatchString, hx, ih]
    rfl

theorem readChunk_run_zero (n : Nat) (rest : GoString) (hn : n ≤ 1024) :
    readChunk (List.replicate n 120 ++ rest) 0 =
      List.replicate n 120 ++ rest.take (1024 - n) := by
  unfold readChunk
  rw [List.drop_zero, List.take_append_eq_append_take, List.length_replicate,
    List.take_of_length_le (by rw [List.length_replicate]; exact hn)]

theorem readChunk_run_past (n k : Nat) (rest : GoString) (hk : n ≤ k) :
    readChunk (List.replicate n 120 ++ rest) k = (rest.drop (k - n)).take 1024 := by
  unfold readChunk
  rw [List.drop_append_eq_append_drop, List.length_replicate,
    List.drop_of_length_le (by rw [List.length_replicate]; exact hk), List.nil_append]

theorem hasTrigger_of_infix (line before after : GoString) (h : HasTrigger line) :
    HasTrigger (before ++ line ++ after) := by
  obtain ⟨t, ht, pre, mid, post, hsplit, hmid⟩ := h
  refine ⟨t, ht, before ++ pre, mid, post ++ after, ?_, hmid⟩
  rw [hsplit]
  simp only [List.append_assoc]

theorem joinLines_split (line : GoString) :
    ∀ lines : List GoString, line ∈ lines →
      ∃ before after, joinLines lines = before ++ line ++ after := by
  intro lines
  induction lines with
  | nil => intro h; exact absurd h (List.not_mem_nil _)
  | cons first later ih =>
    intro h
    rcases List.mem_cons.mp h with heq | hin
    · refine ⟨[], 10 :: joinLines later, ?_⟩
      rw [heq]
      simp [joinLines, concatBytes]
    · obtain ⟨before, after, hsplit⟩ := ih hin
      refine ⟨first ++ [10] ++ before, after, ?_⟩
      have hcons : joinLines (first :: later) = first ++ [10] ++ joinLines later := by
        simp [joinLines, concatBytes]
      rw [hcons, hsplit]
      simp only [List.append_assoc]

/-! ## The first tick on one path -/

/-- The first tick polls a path that opened once, from the end of the file as
it was at watch start, on the file as it is at the tick. -/
theorem watchLogs_first_poll (cfg : Config) (disk : Disk) (openFails : Nat → Bool)
    (env : TickEnv) (p : GoString)
    (hopen : ∃ i, cfg.LogPaths[i]? = some p ∧ openFails i = false)
    (horder : ValidOrder (openLoop disk openFails cfg.LogPaths []).1 env) :
    pollsOf p (watchLogs cfg disk openFails [env]).2.2.2 =
      [(processLogFile (disk p ++ env.appended p) { name := p, offset := (disk p).length } p
        errorRegex cfg (env.poll p)).2] := by
  have hmem : p ∈ openedPaths openFails cfg.LogPaths :=
    (mem_openedPaths_iff p cfg.LogPaths openFails).mpr hopen
  have hload : (openLoop disk openFails cfg.LogPaths []).1.load p =
      some { name := p, offset := (disk p).length } := by
    rw [openLoop_load, if_pos hmem]
  have hperm : env.order.Perm (openLoop disk openFails cfg.LogPaths []).1.keys := horder
  have hnodup : env.order.Nodup :=
    hperm.nodup_iff.mpr (openLoop_nodup disk _ _ [] List.nodup_nil)
  have hin : p ∈ env.order :=
    hperm.mem_iff.mpr ((mem_keys_openLoop disk openFails cfg.LogPaths p).mpr hmem)
  have hpoll := (rangeFiles_poll_of cfg (fun path => disk path ++ env.appended path) env.poll p
    { name := p, offset := (disk p).length } env.order _ hnodup hin hload).1
  show (List.filter (fun entry => decide (entry.1 = p))
    (rangeFiles cfg (fun path => disk path ++ env.appended path) env.poll env.order
      (openLoop disk openFails cfg.LogPaths []).1).2).map Prod.snd ++ [] = _
  rw [hpoll]
  rfl

/-- C4 (as amended): for a watched file, empty at watch start or not, and an
appended text `X` of at most 1024 bytes that is valid UTF-8 and contains a
trigger term, the first tick, its read not failing, polls the file once and
that poll issues exactly one outbound anomaly call; the JSON body of the call
has `logs = [X]` and the message `"Detected error in logs: " + X`, which
contains `X`. -/
theorem trigger_text_reported_once (cfg : Config) (disk : Disk) (openFails : Nat → Bool)
    (env : TickEnv) (p X : GoString)
    (hopen : ∃ i, cfg.LogPaths[i]? = some p ∧ openFails i = false)
    (happ : env.appended p = X)
    (horder : ValidOrder (openLoop disk openFails cfg.LogPaths []).1 env)
    (hread : (env.poll p).readFails = false)
    (hlen : X.length ≤ 1024)
    (hvalid : validUTF8 0 X = true)
    (htrig : HasTrigger X) :
    (pollsOf p (watchLogs cfg disk openFails [env]).2.2.2).map anomalyCalls =
      [[jsonMarshal (buildAnomaly X cfg (env.poll p).report)]] ∧
    (jsonMarshal (buildAnomaly X cfg (env.poll p).report)).logs = [X] ∧
    (jsonMarshal (buildAnomaly X cfg (env.poll p).report)).message =
      ascii "Detected error in logs: " ++ X ∧
    X <:+: (jsonMarshal (buildAnomaly X cfg (env.poll p).report)).message := by
  have hchunk : readChunk (disk p ++ env.appended p)
      ({ name := p, offset := (disk p).length } : OsFile).offset = X := by
    rw [happ]
    exact readChunk_appended (disk p) X _ rfl hlen
  have hm : errorRegex.MatchString (readChunk (disk p ++ env.appended p)
      ({ name := p, offset := (disk p).length } : OsFile).offset) = true := by
    rw [hchunk]
    exact (errorRegex_iff X).mpr htrig
  obtain ⟨hlogs, hmessage⟩ := jsonMarshal_of_valid X cfg (env.poll p).report hvalid
  refine ⟨?_, hlogs, hmessage,
    ⟨ascii "Detected error in logs: ", [], by rw [hmessage, List.append_nil]⟩⟩
  rw [watchLogs_first_poll cfg disk openFails env p hopen horder]
  simp only [List.map_cons, List.map_nil]
  rw [anomalyCalls_poll_match _ _ _ _ _ hread hm, hchunk]

theorem trigger_text_reported_once_witness :
    (∃ i, mainConfig.LogPaths[i]? = some (ascii "./test.log") ∧ everyOpenSucceeds i = false) ∧
    emptyDisk (ascii "./test.log") = [] ∧
    brokeLine.length ≤ 1024 ∧
    validUTF8 0 brokeLine = true ∧
    HasTrigger brokeLine ∧
    (pollsOf (ascii "./test.log") (watchLogs mainConfig emptyDisk everyOpenSucceeds
      [appendTick brokeLine [ascii "./test.log"]]).2.2.2).map anomalyCalls =
      [[jsonMarshal (buildAnomaly brokeLine mainConfig calmPoll.report)]] ∧
    (jsonMarshal (buildAnomaly brokeLine mainConfig calmPoll.report)).logs =
      [ascii "2024-01-01 ERROR something broke\n"] :=
  have hopen : ∃ i, mainConfig.LogPaths[i]? = some (ascii "./test.log") ∧
      everyOpenSucceeds i = false := ⟨0, rfl, rfl⟩
  have hlen : brokeLine.length ≤ 1024 := by decide
  have hvalid : validUTF8 0 brokeLine = true := by decide
  have htrig : HasTrigger brokeLine := (errorRegex_iff _).mp (by decide)
  ⟨hopen, rfl, hlen, hvalid, htrig,
    (trigger_text_reported_once mainConfig emptyDisk everyOpenSucceeds
      (appendTick brokeLine [ascii "./test.log"]) (ascii "./test.log") brokeLine hopen rfl
      (List.Perm.refl _) rfl hlen hvalid htrig).1,
    (trigger_text_reported_once mainConfig emptyDisk everyOpenSucceeds
      (appendTick brokeLine [ascii "./test.log"]) (ascii "./test.log") brokeLine hopen rfl
      (List.Perm.refl _) rfl hlen hvalid htrig).2.1⟩

/-- C4 as stated fails: the file is empty at watch start and receives a text
whose only trigger term lies beyond byte 1024; the first tick polls the file
once and issues no anomaly call. Nor is there a call when the scenario's line
is appended and the read of that tick fails. And for the line `badLine`,
which holds a trigger term and the byte `0xFF`, the one call that is issued
carries U+FFFD in place of that byte, so its `logs` are not `[badLine]`. -/
theorem late_trigger_not_reported :
    emptyDisk (ascii "./test.log") = [] ∧
    HasTrigger lateError ∧
    (pollsOf (ascii "./test.log") (watchLogs mainConfig emptyDisk everyOpenSucceeds
      [appendTick lateError [ascii "./test.log"]]).2.2.2).map anomalyCalls = [[]] ∧
    (pollsOf (ascii "./test.log") (watchLogs mainConfig emptyDisk everyOpenSucceeds
      [failingTick brokeLine [ascii "./test.log"]]).2.2.2).map anomalyCalls = [[]] ∧
    (HasTrigger badLine ∧ badLine.length ≤ 1024 ∧
      (pollsOf (ascii "./test.log") (watchLogs mainConfig emptyDisk everyOpenSucceeds
        [appendTick badLine [ascii "./test.log"]]).2.2.2).map
          (fun effects => (anomalyCalls effects).map AnomalyJSON.logs) =
        [[[ascii "error " ++ [239, 191, 189, 10]]]] ∧
      (pollsOf (ascii "./test.log") (watchLogs mainConfig emptyDisk everyOpenSucceeds
        [appendTick badLine [ascii "./test.log"]]).2.2.2).map
          (fun effects => (anomalyCalls effects).map AnomalyJSON.logs) ≠ [[[badLine]]]) := by
  refine ⟨rfl, ?_, ?_, by decide,
    (errorRegex_iff _).mp (by decide), by decide, by decide, by decide⟩
  · exact ⟨ascii "error", by simp [triggerTerms],
      List.replicate 1024 120, ascii "error", [], (List.append_nil lateError).symm, by decide⟩
  · rw [watchLogs_first_poll mainConfig emptyDisk everyOpenSucceeds
      (appendTick lateError [ascii "./test.log"]) (ascii "./test.log") ⟨0, rfl, rfl⟩
      (List.Perm.refl _)]
    simp only [List.map_cons, List.map_nil]
    rw [anomalyCalls_poll_nomatch]
    show errorRegex.MatchString (readChunk lateError 0) = false
    have hchunk : readChunk lateError 0 = List.replicate 1024 120 ++ [] := by
      unfold lateError
      rw [readChunk_run_zero 1024 _ (Nat.le_refl _)]
      rfl
    rw [hchunk, MatchString_run]
    exact errorRegex_nil

/-! ## Chunk boundaries -/

theorem straddle_length : straddle.length = 1027 := by
  unfold straddle
  rw [List.length_append, List.length_replicate, ascii_error]
  rfl

theorem straddle_chunks :
    readChunk straddle 0 = List.replicate 1022 120 ++ [101, 114] ∧
    readChunk straddle 1024 = [114, 111, 114] ∧
    readChunk straddle 1027 = [] := by
  refine ⟨?_, ?_, ?_⟩
  · unfold straddle
    rw [readChunk_run_zero 1022 _ (by omega)]
    rfl
  · unfold straddle
    rw [readChunk_run_past 1022 1024 _ (by omega)]
    rfl
  · unfold straddle
    rw [readChunk_run_past 1022 1027 _ (by omega)]
    rfl

/-- From offset 0, 1024 or 1027 no poll of the straddling text reports, and the
offset stays among the three. -/
theorem straddle_never_reported (path : GoString) (cfg : Config) :
    ∀ (envs : List PollEnv) (file : OsFile),
      file.offset = 0 ∨ file.offset = 1024 ∨ file.offset = 1027 →
      ∀ effects ∈ (pollCycles path cfg straddle file
          (envs.map (fun env => (([] : GoString), env)))).2,
        anomalyCalls effects = [] := by
  obtain ⟨hc0, hc1, hc2⟩ := straddle_chunks
  have hno : ∀ file : OsFile, file.offset = 0 ∨ file.offset = 1024 ∨ file.offset = 1027 →
      errorRegex.MatchString (readChunk straddle file.offset) = false := by
    intro file hoff
    rcases hoff with h | h | h
    · rw [h, hc0, MatchString_run]; decide
    · rw [h, hc1]; decide
    · rw [h, hc2]; decide
  intro envs
  induction envs with
  | nil => intro file _ effects h; exact absurd h (List.not_mem_nil _)
  | cons env later ih =>
    intro file hoff effects heff
    rw [List.map_cons, pollCycles_cons, List.append_nil] at heff
    rcases List.mem_cons.mp heff with heq | hin
    · rw [heq]
      exact anomalyCalls_poll_nomatch straddle file path cfg env (hno file hoff)
    · refine ih _ ?_ effects hin
      rcases Bool.eq_false_or_eq_true env.readFails with hread | hread
      · rw [processLogFile_fail straddle file path errorRegex cfg env hread]
        exact hoff
      · rw [(poll_step straddle file path cfg env hread).1]
        show file.offset + (readChunk straddle file.offset).length = 0 ∨
          file.offset + (readChunk straddle file.offset).length = 1024 ∨
          file.offset + (readChunk straddle file.offset).length = 1027
        rcases hoff with h | h | h
        · rw [h, hc0]; right; left
          simp only [List.length_append, List.length_replicate, List.length_cons,
            List.length_nil]
        · rw [h, hc1]; right; right; rfl
        · rw [h, hc2]; right; right; rfl

/-- C10: chunked reading loses a trigger term that straddles a chunk boundary:
the text `straddle` contains "error", yet polling it from an empty file, any
number of times, issues no anomaly call, and two polls reach its end. And a
chunk of at most 1024 bytes made of log lines, few or many, one of them with
a trigger term, is reported as one event whose `Logs` entry is the whole chunk;
the body posted is the JSON of that event, its one `logs` entry the whole
chunk as JSON carries it, byte for byte when the chunk is valid UTF-8. -/
theorem chunking_loses_and_merges :
    (HasTrigger straddle ∧
      (∀ (path : GoString) (cfg : Config) (first : PollEnv) (later : List PollEnv),
        ∀ effects ∈ (pollCycles path cfg [] { name := path, offset := 0 }
            ((straddle, first) :: later.map (fun env => (([] : GoString), env)))).2,
          anomalyCalls effects = []) ∧
      (pollCycles (ascii "./test.log") mainConfig [] testLogAtStart
        [(straddle, calmPoll), ([], calmPoll)]).1.offset = straddle.length) ∧
    (∀ (path : GoString) (cfg : Config) (content : GoString) (file : OsFile) (env : PollEnv)
        (lines : List GoString),
      file.offset = content.length → env.readFails = false →
      (∃ line ∈ lines, HasTrigger line) → (joinLines lines).length ≤ 1024 →
      anomalyCalls (processLogFile (content ++ joinLines lines) file path errorRegex cfg env).2 =
        [jsonMarshal (buildAnomaly (joinLines lines) cfg env.report)] ∧
      (buildAnomaly (joinLines lines) cfg env.report).Logs = [joinLines lines] ∧
      (jsonMarshal (buildAnomaly (joinLines lines) cfg env.report)).logs =
        [jsonString 0 (joinLines lines)] ∧
      (validUTF8 0 (joinLines lines) = true →
        (jsonMarshal (buildAnomaly (joinLines lines) cfg env.report)).logs =
          [joinLines lines])) := by
  refine ⟨⟨?_, ?_, ?_⟩, ?_⟩
  · exact ⟨ascii "error", by simp [triggerTerms],
      List.replicate 1022 120, ascii "error", [], (List.append_nil straddle).symm, by decide⟩
  · intro path cfg first later effects heff
    have h := straddle_never_reported path cfg (first :: later) { name := path, offset := 0 }
      (Or.inl rfl) effects
    apply h
    rw [List.map_cons, pollCycles_cons, List.append_nil]
    rw [pollCycles_cons, List.nil_append] at heff
    exact heff
  · obtain ⟨hc0, hc1, _⟩ := straddle_chunks
    rw [pollCycles_cons, pollCycles_cons, pollCycles_nil]
    simp only [List.nil_append, List.append_nil]
    rw [poll_offset _ _ _ _ _ rfl, poll_offset _ _ _ _ _ rfl]
    have h0 : testLogAtStart.offset = 0 := rfl
    rw [h0, hc0]
    simp only [List.length_append, List.length_replicate, List.length_cons, List.length_nil]
    rw [hc1, straddle_length]
    rfl
  · intro path cfg content file env lines hstart hread hline hlen
    obtain ⟨line, hmem, htrig⟩ := hline
    obtain ⟨before, after, hsplit⟩ := joinLines_split line lines hmem
    have hall : HasTrigger (joinLines lines) := by
      rw [hsplit]
      exact hasTrigger_of_infix line before after htrig
    have hchunk := readChunk_appended content (joinLines lines) file.offset hstart hlen
    have hm : errorRegex.MatchString (readChunk (content ++ joinLines lines) file.offset) =
        true := by
      rw [hchunk]
      exact (errorRegex_iff _).mpr hall
    refine ⟨?_, rfl, rfl, fun hvalid => (jsonMarshal_of_valid _ cfg env.report hvalid).1⟩
    rw [anomalyCalls_poll_match _ _ _ _ _ hread hm, hchunk]

theorem chunking_loses_and_merges_witness :
    (ascii "App started\n").length = 12 ∧
    anomalyCalls (processLogFile
      (ascii "App started\n" ++ joinLines [ascii "GET /a 200", ascii "db connect failed"])
      { name := ascii "./test.log", offset := 12 } (ascii "./test.log") errorRegex mainConfig
      calmPoll).2 =
      [jsonMarshal
        (buildAnomaly (ascii "GET /a 200\ndb connect failed\n") mainConfig calmPoll.report)] :=
  ⟨rfl, (chunking_loses_and_merges.2 (ascii "./test.log") mainConfig (ascii "App started\n")
    { name := ascii "./test.log", offset := 12 } calmPoll
    [ascii "GET /a 200", ascii "db connect failed"] rfl rfl
    ⟨ascii "db connect failed", by decide, (errorRegex_iff _).mp (by decide)⟩ (by decide)).1⟩

/-! ## The watcher on one path is `pollCycles` -/

/-- Over any number of ticks with valid orders, the polls of a path with a
cursor are the polling cycles of that cursor on that path's file. -/
theorem runTicks_pollsOf (cfg : Config) (p : GoString) :
    ∀ (ticks : List TickEnv) (st : WatchState) (f : OsFile),
      st.files.load p = some f → f.name = p → st.files.keys.Nodup →
      (∀ env ∈ ticks, ValidOrder st.files env) →
      pollsOf p (runTicks cfg st ticks).2 =
        (pollCycles p cfg (st.disk p) f
          (ticks.map (fun env => (env.appended p, env.poll p)))).2 ∧
      (runTicks cfg st ticks).1.files.load p =
        some (pollCycles p cfg (st.disk p) f
          (ticks.map (fun env => (env.appended p, env.poll p)))).1 := by
  intro ticks
  induction ticks with
  | nil =>
    intro st f hload _ _ _
    exact ⟨rfl, hload⟩
  | cons env later ih =>
    intro st f hload hname hnodup horder
    have hperm : env.order.Perm st.files.keys := horder env (List.mem_cons_self _ _)
    have hin : p ∈ env.order := by
      apply hperm.mem_iff.mpr
      by_contra hn
      rw [(load_eq_none_iff st.files p).mpr hn] at hload
      exact Option.noConfusion hload
    obtain ⟨hpoll, hnext⟩ := rangeFiles_poll_of cfg
      (fun path => st.disk path ++ env.appended path) env.poll p f env.order st.files
      (hperm.nodup_iff.mpr hnodup) hin hload
    rw [hname] at hpoll hnext
    have hname1 : (processLogFile (st.disk p ++ env.appended p) f p errorRegex cfg
        (env.poll p)).1.name = p :=
      (poll_offset_le _ f p cfg (env.poll p)).2.trans hname
    have hkeys := tick_keys cfg st env
    have hlater : ∀ env1 ∈ later, ValidOrder (tick cfg st env).1.files env1 := by
      intro env1 h1
      unfold ValidOrder
      rw [hkeys]
      exact horder env1 (List.mem_cons_of_mem _ h1)
    obtain ⟨ih1, ih2⟩ := ih (tick cfg st env).1 _ hnext hname1 (hkeys ▸ hnodup) hlater
    rw [runTicks_cons, List.map_cons, pollCycles_cons]
    refine ⟨?_, ih2⟩
    show (List.filter (fun entry => decide (entry.1 = p)) (tick cfg st env).2).map Prod.snd ++
      pollsOf p (runTicks cfg (tick cfg st env).1 later).2 = _
    rw [ih1]
    have hpoll2 : List.filter (fun entry => decide (entry.1 = p)) (tick cfg st env).2 =
        [(p, (processLogFile (st.disk p ++ env.appended p) f p errorRegex cfg
          (env.poll p)).2)] := hpoll
    rw [hpoll2]
    rfl

end Sidecar
